import Mathlib

/-!
Verification of the ontology-constrained validation and consolidation engine
of the AutoBrKG pipeline.

The development shallowly embeds the Python sources:
  * `utils1/ontology.py`  — JSON-to-RDF conversion, subclass checking and
    ontological validation (`is_subclass_or_equivalent`, `validate_graph`,
    `validate_json_instance`, `get_or_create_instance_uri`, …);
  * `utils/neo4j_utils.py` — the cross-batch consolidation pass
    (`find_and_merge_duplicate_nodes`, `merge_multiple_nodes`) and the
    path-enumeration stage (`_find_and_return_root_nodes`,
    `_find_and_return_full_paths`, `combine_paths`).

RDF graphs are embedded as lists of triples over an `RDFNode` datatype,
Python sets as first-occurrence deduplicated lists, and the Neo4j store as a
list of nodes and a list of edges.  The Cypher/APOC operations issued by the
Python code are embedded by their documented effect on that store model.
-/

/-! ## List utilities mirroring Python set/dict iteration order -/

/-- Helper for `firstDedup`: drops every element already in `seen`. -/
def firstDedupAux {α : Type} [DecidableEq α] (seen : List α) : List α → List α
  | [] => []
  | x :: xs => if x ∈ seen then firstDedupAux seen xs else x :: firstDedupAux (x :: seen) xs

/-- First-occurrence deduplication: keeps the first copy of each element, in
order.  This matches the iteration order of Python `dict`/`LinkedHashSet`
style containers that the source code relies on. -/
def firstDedup {α : Type} [DecidableEq α] (l : List α) : List α :=
  firstDedupAux [] l

theorem mem_firstDedupAux {α : Type} [DecidableEq α] {x : α} :
    ∀ {seen l : List α}, x ∈ firstDedupAux seen l ↔ x ∈ l ∧ x ∉ seen := by
  intro seen l
  induction l generalizing seen with
  | nil => simp [firstDedupAux]
  | cons y ys ih =>
    rw [firstDedupAux]
    by_cases hy : y ∈ seen
    · simp only [hy, if_pos, ih, List.mem_cons]
      constructor
      · rintro ⟨h1, h2⟩; exact ⟨Or.inr h1, h2⟩
      · rintro ⟨h1 | h1, h2⟩
        · exact absurd (h1 ▸ hy) h2
        · exact ⟨h1, h2⟩
    · simp only [hy, if_neg, List.mem_cons, ih]
      by_cases hxy : x = y
      · subst hxy; simp [hy]
      · simp [hxy, ih, List.mem_cons]

theorem mem_firstDedup {α : Type} [DecidableEq α] {x : α} {l : List α} :
    x ∈ firstDedup l ↔ x ∈ l := by
  simp [firstDedup, mem_firstDedupAux]

theorem nodup_firstDedupAux {α : Type} [DecidableEq α] :
    ∀ (seen l : List α), (firstDedupAux seen l).Nodup := by
  intro seen l
  induction l generalizing seen with
  | nil => simp [firstDedupAux]
  | cons y ys ih =>
    rw [firstDedupAux]
    by_cases hy : y ∈ seen
    · simpa [hy] using ih seen
    · simp only [hy, if_neg]
      refine List.nodup_cons.2 ⟨?_, ih (y :: seen)⟩
      intro hmem
      exact (mem_firstDedupAux.1 hmem).2 (List.mem_cons_self _ _)

theorem nodup_firstDedup {α : Type} [DecidableEq α] (l : List α) :
    (firstDedup l).Nodup :=
  nodup_firstDedupAux [] l

/-! ## Python string helpers

Lean's `String.replace`/`String.isPrefixOf` are byte-level loops that do not
reduce well in the kernel, so the Python string operations used by the source
are re-implemented structurally over character lists. -/

/-- Left-to-right, non-overlapping replacement of `pat` by `rep`, as in
Python `str.replace` (for a non-empty pattern). -/
def replaceChars (pat rep : List Char) : Nat → List Char → List Char
  | 0, s => s
  | _, [] => []
  | n + 1, c :: rest =>
    if pat ≠ [] ∧ pat.isPrefixOf (c :: rest) then
      rep ++ replaceChars pat rep n (List.drop pat.length (c :: rest))
    else
      c :: replaceChars pat rep n rest

/-- Python `str.replace` on strings (non-overlapping, left to right). -/
def pyReplace (s pat rep : String) : String :=
  ⟨replaceChars pat.data rep.data (s.data.length + 1) s.data⟩

/-- Python `str.strip()`: remove leading and trailing whitespace. -/
def pyStrip (s : String) : String :=
  ⟨((s.data.dropWhile Char.isWhitespace).reverse.dropWhile Char.isWhitespace).reverse⟩

/-- Python `str.strip(chars)`: remove leading and trailing characters that
occur in `chars`. -/
def pyStripChars (s : String) (chars : List Char) : String :=
  ⟨((s.data.dropWhile (· ∈ chars)).reverse.dropWhile (· ∈ chars)).reverse⟩

/-! ## Generic finite-graph reachability

`is_subclass_or_equivalent` answers a SPARQL `ASK { ?c rdfs:subClassOf* ?s }`
query, i.e. reflexive-transitive reachability over the declared
`rdfs:subClassOf` edges.  We embed that query by a saturation computation
whose result is proved to coincide with `Relation.ReflTransGen` over the edge
list. -/

section Reach

variable {α : Type} [DecidableEq α]

/-- Direct successors of `x` in the edge list. -/
def succsOf (es : List (α × α)) (x : α) : List α :=
  (es.filter (fun e => decide (e.1 = x))).map (·.2)

/-- Elements newly reachable in one expansion round from `s`. -/
def expandNew (es : List (α × α)) (s : List α) : List α :=
  firstDedup ((s.flatMap (succsOf es)).filter (fun y => decide (y ∉ s)))

/-- Iterated expansion; stops as soon as a round adds nothing. -/
def iterClose (es : List (α × α)) : Nat → List α → List α
  | 0, s => s
  | n + 1, s =>
    let ns := expandNew es s
    if ns = [] then s else iterClose es n (s ++ ns)

/-- All nodes reachable from `a` over the edge list (including `a`). -/
def reachSet (es : List (α × α)) (a : α) : List α :=
  iterClose es (es.length + 1) [a]

/-- Decidable reachability over the edge list. -/
def reachableB (es : List (α × α)) (a b : α) : Bool :=
  decide (b ∈ reachSet es a)

/-- The step relation generated by an edge list. -/
def stepRel (es : List (α × α)) (x y : α) : Prop := (x, y) ∈ es

theorem subset_iterClose (es : List (α × α)) :
    ∀ (n : Nat) (s : List α), ∀ x ∈ s, x ∈ iterClose es n s
  | 0, _, _, hx => hx
  | n + 1, s, x, hx => by
    rw [iterClose]
    by_cases h : expandNew es s = []
    · simpa [h] using hx
    · simp only [h, if_neg]
      exact subset_iterClose es n (s ++ expandNew es s) x (List.mem_append_left _ hx)

theorem iterClose_sound (es : List (α × α)) :
    ∀ (n : Nat) (s : List α), ∀ b ∈ iterClose es n s,
      ∃ a ∈ s, Relation.ReflTransGen (stepRel es) a b
  | 0, s, b, hb => ⟨b, hb, Relation.ReflTransGen.refl⟩
  | n + 1, s, b, hb => by
    rw [iterClose] at hb
    by_cases h : expandNew es s = []
    · simp only [h, if_pos] at hb
      exact ⟨b, hb, Relation.ReflTransGen.refl⟩
    · simp only [h, if_neg] at hb
      obtain ⟨a, ha, hab⟩ := iterClose_sound es n (s ++ expandNew es s) b hb
      rcases List.mem_append.1 ha with ha' | ha'
      · exact ⟨a, ha', hab⟩
      · have : a ∈ (s.flatMap (succsOf es)).filter (fun y => decide (y ∉ s)) :=
          mem_firstDedup.1 ha'
        have hmem := (List.mem_filter.1 this).1
        obtain ⟨c, hc, hca⟩ := List.mem_flatMap.1 hmem
        obtain ⟨e, he, he2⟩ := List.mem_map.1 hca
        have hsrc : e.1 = c := by simpa using (List.mem_filter.1 he).2
        have hstep : stepRel es c a := by
          have : e ∈ es := (List.mem_filter.1 he).1
          rw [stepRel, ← hsrc, ← he2]
          exact this
        exact ⟨c, hc, Relation.ReflTransGen.head hstep hab⟩

/-- A list closed under successor steps. -/
def closedUnder (es : List (α × α)) (l : List α) : Prop :=
  ∀ x ∈ l, ∀ y, stepRel es x y → y ∈ l

theorem iterClose_closed (es : List (α × α)) :
    ∀ (n : Nat) (s univ : List α), s.Nodup → (∀ x ∈ s, x ∈ univ) →
      (∀ e ∈ es, e.2 ∈ univ) → univ.length < n + s.length →
      closedUnder es (iterClose es n s)
  | 0, s, univ, hnd, hsub, _, hlen => by
    exfalso
    have hsp : List.Subperm s univ := hnd.subperm hsub
    have := hsp.length_le
    omega
  | n + 1, s, univ, hnd, hsub, hdst, hlen => by
    rw [iterClose]
    by_cases h : expandNew es s = []
    · simp only [h, if_pos]
      intro x hx y hy
      by_contra hys
      have hmem : y ∈ (s.flatMap (succsOf es)).filter (fun z => decide (z ∉ s)) := by
        refine List.mem_filter.2 ⟨?_, by simpa using hys⟩
        refine List.mem_flatMap.2 ⟨x, hx, ?_⟩
        refine List.mem_map.2 ⟨(x, y), List.mem_filter.2 ⟨hy, by simp⟩, rfl⟩
      have : y ∈ expandNew es s := mem_firstDedup.2 hmem
      simp [h] at this
    · simp only [h, if_neg]
      have hndn : (s ++ expandNew es s).Nodup := by
        refine List.Nodup.append hnd (nodup_firstDedup _) ?_
        intro x hxs hxn
        have := (List.mem_filter.1 (mem_firstDedup.1 hxn)).2
        simp [hxs] at this
      have hsubn : ∀ x ∈ s ++ expandNew es s, x ∈ univ := by
        intro x hx
        rcases List.mem_append.1 hx with hx' | hx'
        · exact hsub x hx'
        · have hmem := (List.mem_filter.1 (mem_firstDedup.1 hx')).1
          obtain ⟨c, _, hca⟩ := List.mem_flatMap.1 hmem
          obtain ⟨e, he, he2⟩ := List.mem_map.1 hca
          have : e ∈ es := (List.mem_filter.1 he).1
          rw [← he2]
          exact hdst e this
      have hlt : univ.length < n + (s ++ expandNew es s).length := by
        have hpos : 0 < (expandNew es s).length := List.length_pos.2 h
        simp only [List.length_append]
        omega
      exact iterClose_closed es n (s ++ expandNew es s) univ hndn hsubn hdst hlt

theorem reachSet_complete (es : List (α × α)) (a b : α)
    (h : Relation.ReflTransGen (stepRel es) a b) : b ∈ reachSet es a := by
  have hclosed : closedUnder es (reachSet es a) := by
    refine iterClose_closed es (es.length + 1) [a] (a :: es.map (·.2)) (by simp) ?_ ?_ ?_
    · intro x hx; simp at hx; simp [hx]
    · intro e he
      exact List.mem_cons_of_mem _ (List.mem_map.2 ⟨e, he, rfl⟩)
    · simp [Nat.lt_succ_iff]
  induction h with
  | refl => exact subset_iterClose es _ [a] a (by simp)
  | tail _ hstep ih => exact hclosed _ ih _ hstep

theorem reachableB_iff (es : List (α × α)) (a b : α) :
    reachableB es a b = true ↔ Relation.ReflTransGen (stepRel es) a b := by
  constructor
  · intro h
    have hb : b ∈ reachSet es a := by simpa [reachableB] using h
    obtain ⟨c, hc, hcb⟩ := iterClose_sound es (es.length + 1) [a] b hb
    simp at hc
    rwa [hc] at hcb
  · intro h
    simpa [reachableB] using reachSet_complete es a b h

end Reach

/-! ## RDF data model (rdflib embedding)

`utils1/ontology.py` manipulates rdflib graphs whose nodes are `URIRef`s,
`BNode`s and `Literal`s.  A graph is a set of triples; we embed it as a
`List` of triples and state set-sensitive theorems under a `Nodup`
hypothesis. -/

inductive RDFNode : Type
  | uri (u : String)
  | bnode (i : Nat)
  | lit (val : String) (dt : Option String) (lang : Option String)
deriving DecidableEq, Repr

/-- An RDF triple (subject, predicate, object). -/
abbrev RTriple : Type := RDFNode × RDFNode × RDFNode

/-- Python `str(node)`: a `URIRef` prints as its URI, a literal as its
lexical value, a blank node as its internal identifier. -/
def strOfNode : RDFNode → String
  | RDFNode.uri u => u
  | RDFNode.bnode i => "N" ++ toString i
  | RDFNode.lit v _ _ => v

/-- Structural string-prefix test (Python `str.startswith`). -/
def strStartsWith (s pre : String) : Bool :=
  pre.data.isPrefixOf s.data

/-- Namespace constants, as bound in `utils1/ontology.py`. -/
def ONTpre : String := "http://example.org/bridge-defect-ontology#"

def INSTpre : String := "http://example.org/instance/"

def RDFpre : String := "http://www.w3.org/1999/02/22-rdf-syntax-ns#"

def RDFSpre : String := "http://www.w3.org/2000/01/rdf-schema#"

def OWLpre : String := "http://www.w3.org/2002/07/owl#"

def XSDpre : String := "http://www.w3.org/2001/XMLSchema#"

/-- `ONT[name]`: a URI in the ontology namespace. -/
def ontN (l : String) : RDFNode := RDFNode.uri (ONTpre ++ l)

/-- `INST[name]`: a URI in the instance namespace. -/
def instN (l : String) : RDFNode := RDFNode.uri (INSTpre ++ l)

def rdfTypeN : RDFNode := RDFNode.uri (RDFpre ++ "type")

def rdfPropertyN : RDFNode := RDFNode.uri (RDFpre ++ "Property")

def rdfLangStringN : RDFNode := RDFNode.uri (RDFpre ++ "langString")

def rdfsSubClassOfN : RDFNode := RDFNode.uri (RDFSpre ++ "subClassOf")

def rdfsDomainN : RDFNode := RDFNode.uri (RDFSpre ++ "domain")

def rdfsRangeN : RDFNode := RDFNode.uri (RDFSpre ++ "range")

def rdfsLabelN : RDFNode := RDFNode.uri (RDFSpre ++ "label")

def rdfsClassN : RDFNode := RDFNode.uri (RDFSpre ++ "Class")

def owlClassN : RDFNode := RDFNode.uri (OWLpre ++ "Class")

def owlObjectPropertyN : RDFNode := RDFNode.uri (OWLpre ++ "ObjectProperty")

def owlDatatypePropertyN : RDFNode := RDFNode.uri (OWLpre ++ "DatatypeProperty")

def owlUnionOfN : RDFNode := RDFNode.uri (OWLpre ++ "unionOf")

def rdfFirstN : RDFNode := RDFNode.uri (RDFpre ++ "first")

def rdfRestN : RDFNode := RDFNode.uri (RDFpre ++ "rest")

def rdfNilN : RDFNode := RDFNode.uri (RDFpre ++ "nil")

def xsdStringN : RDFNode := RDFNode.uri (XSDpre ++ "string")

/-- `isinstance(n, URIRef) and str(n).startswith(str(ONT))`. -/
def isOntNode : RDFNode → Bool
  | RDFNode.uri u => strStartsWith u ONTpre
  | _ => false

/-- `isinstance(n, URIRef) and str(n).startswith(str(INST))`. -/
def isInstNode : RDFNode → Bool
  | RDFNode.uri u => strStartsWith u INSTpre
  | _ => false

/-- `isinstance(n, URIRef) and str(n).startswith(str(XSD))`. -/
def isXsdNode : RDFNode → Bool
  | RDFNode.uri u => strStartsWith u XSDpre
  | _ => false

/-! ## Subclass checking (`is_subclass_or_equivalent`) -/

/-- The declared `rdfs:subClassOf` edges of a graph. -/
def subClassOfEdges (g : List RTriple) : List (RDFNode × RDFNode) :=
  (g.filter (fun t => decide (t.2.1 = rdfsSubClassOfN))).map (fun t => (t.1, t.2.2))

/-- Embedding of `is_subclass_or_equivalent(class_uri, superclass_uri, g)`:
`False` unless both arguments are `URIRef`s; `True` on equality; otherwise a
SPARQL `ASK { ?c rdfs:subClassOf* ?s }` query, i.e. reflexive-transitive
reachability over the declared subclass edges. -/
def is_subclass_or_equivalent (classU superU : RDFNode) (ontG : List RTriple) : Bool :=
  match classU, superU with
  | RDFNode.uri _, RDFNode.uri _ =>
    if classU = superU then true
    else reachableB (subClassOfEdges ontG) classU superU
  | _, _ => false

/-- The named classes declared in the ontology (subjects of
`rdf:type owl:Class` or `rdf:type rdfs:Class` that are URIs). -/
def declaredClasses (g : List RTriple) : List String :=
  g.filterMap (fun t =>
    match t.1 with
    | RDFNode.uri u =>
      if t.2.1 = rdfTypeN ∧ (t.2.2 = owlClassN ∨ t.2.2 = rdfsClassN) then some u else none
    | _ => none)

theorem is_subclass_refl (g : List RTriple) (a : String) :
    is_subclass_or_equivalent (RDFNode.uri a) (RDFNode.uri a) g = true := by
  simp [is_subclass_or_equivalent]

theorem is_subclass_trans (g : List RTriple) (a b c : RDFNode)
    (hab : is_subclass_or_equivalent a b g = true)
    (hbc : is_subclass_or_equivalent b c g = true) :
    is_subclass_or_equivalent a c g = true := by
  match a, b, c with
  | RDFNode.uri ua, RDFNode.uri ub, RDFNode.uri uc =>
    simp only [is_subclass_or_equivalent] at hab hbc ⊢
    by_cases hac : RDFNode.uri ua = RDFNode.uri uc
    · simp [hac]
    · simp only [hac, if_neg, if_false]
      by_cases h1 : RDFNode.uri ua = RDFNode.uri ub
      · rw [h1]
        by_cases h2 : RDFNode.uri ub = RDFNode.uri uc
        · exact absurd (h1.trans h2) hac
        · simpa [h2] using hbc
      · by_cases h2 : RDFNode.uri ub = RDFNode.uri uc
        · rw [← h2]
          simpa [h1] using hab
        · simp only [h1, if_neg] at hab
          simp only [h2, if_neg] at hbc
          have t1 := (reachableB_iff _ _ _).1 hab
          have t2 := (reachableB_iff _ _ _).1 hbc
          exact (reachableB_iff _ _ _).2 (t1.trans t2)

/-- C1: over any ontology graph, the subclass check is reflexive on every
declared class and transitive on declared classes. -/
theorem c1_subclass_refl_trans (g : List RTriple) :
    (∀ a : String, a ∈ declaredClasses g →
      is_subclass_or_equivalent (RDFNode.uri a) (RDFNode.uri a) g = true) ∧
    (∀ a b c : String, a ∈ declaredClasses g → b ∈ declaredClasses g →
      c ∈ declaredClasses g →
      is_subclass_or_equivalent (RDFNode.uri a) (RDFNode.uri b) g = true →
      is_subclass_or_equivalent (RDFNode.uri b) (RDFNode.uri c) g = true →
      is_subclass_or_equivalent (RDFNode.uri a) (RDFNode.uri c) g = true) :=
  ⟨fun a _ => is_subclass_refl g a,
   fun _ _ _ _ _ _ hab hbc => is_subclass_trans g _ _ _ hab hbc⟩

/-- A small concrete ontology used by the witnesses: classes A ⊑ B ⊑ C. -/
def ontW : List RTriple :=
  [(ontN "A", rdfTypeN, owlClassN),
   (ontN "B", rdfTypeN, owlClassN),
   (ontN "C", rdfTypeN, owlClassN),
   (ontN "A", rdfsSubClassOfN, ontN "B"),
   (ontN "B", rdfsSubClassOfN, ontN "C")]

theorem c1_witness :
    (ONTpre ++ "A") ∈ declaredClasses ontW ∧
    (ONTpre ++ "B") ∈ declaredClasses ontW ∧
    (ONTpre ++ "C") ∈ declaredClasses ontW ∧
    is_subclass_or_equivalent (RDFNode.uri (ONTpre ++ "A"))
      (RDFNode.uri (ONTpre ++ "B")) ontW = true ∧
    is_subclass_or_equivalent (RDFNode.uri (ONTpre ++ "B"))
      (RDFNode.uri (ONTpre ++ "C")) ontW = true ∧
    is_subclass_or_equivalent (RDFNode.uri (ONTpre ++ "A"))
      (RDFNode.uri (ONTpre ++ "A")) ontW = true ∧
    is_subclass_or_equivalent (RDFNode.uri (ONTpre ++ "A"))
      (RDFNode.uri (ONTpre ++ "C")) ontW = true := by
  refine ⟨by decide, by decide, by decide, by decide, by decide, ?_, ?_⟩
  · exact (c1_subclass_refl_trans ontW).1 (ONTpre ++ "A") (by decide)
  · exact (c1_subclass_refl_trans ontW).2 (ONTpre ++ "A") (ONTpre ++ "B") (ONTpre ++ "C")
      (by decide) (by decide) (by decide) (by decide) (by decide)

/-! ## Type compatibility and graph validation (`validate_graph`) -/

/-- `next(graph.objects(s, p), None)`: the first object of a matching triple. -/
def firstObj (g : List RTriple) (s p : RDFNode) : Option RDFNode :=
  (g.find? (fun t => decide (t.1 = s ∧ t.2.1 = p))).map (·.2.2)

/-- `set(graph.objects(s, p))` as a first-occurrence list. -/
def objectsOf (g : List RTriple) (s p : RDFNode) : List RDFNode :=
  firstDedup ((g.filter (fun t => decide (t.1 = s ∧ t.2.1 = p))).map (·.2.2))

/-- `get_entity_types(e, g)`: all `rdf:type` objects of `e`. -/
def get_entity_types (e : RDFNode) (g : List RTriple) : List RDFNode :=
  objectsOf g e rdfTypeN

/-- `get_property_domains(p, ont)`: all `rdfs:domain` objects of `p`. -/
def get_property_domains (p : RDFNode) (ontG : List RTriple) : List RDFNode :=
  objectsOf ontG p rdfsDomainN

/-- `get_property_ranges(p, ont)`: all `rdfs:range` objects of `p`. -/
def get_property_ranges (p : RDFNode) (ontG : List RTriple) : List RDFNode :=
  objectsOf ontG p rdfsRangeN

/-- Members of an RDF collection (`rdflib.collection.Collection`), walking
`rdf:first`/`rdf:rest` links until `rdf:nil`; the fuel bounds the walk on
malformed (cyclic) lists. -/
def listMembers (g : List RTriple) : Nat → RDFNode → List RDFNode
  | 0, _ => []
  | n + 1, node =>
    if node = rdfNilN then []
    else
      match firstObj g node rdfFirstN with
      | none => []
      | some h =>
        h :: (match firstObj g node rdfRestN with
              | none => []
              | some t => listMembers g n t)

/-- Embedding of `check_type_compatibility(actual, expected, ont)`.  The fuel
bounds the recursion through nested `owl:unionOf` expressions; the top-level
call's fuel exceeds any well-formed nesting depth, and exhaustion returns
`false` exactly as the source's `except`-guard does. -/
def check_type_compatibility (ontG : List RTriple) : Nat → RDFNode → RDFNode → Bool
  | 0, _, _ => false
  | fuel + 1, actual, expected =>
    match actual with
    | RDFNode.lit _ _ _ => false
    | _ =>
      match expected with
      | RDFNode.bnode _ =>
        (match firstObj ontG expected owlUnionOfN with
         | some listNode =>
           (listMembers ontG (ontG.length + 1) listNode).any
             (fun m => check_type_compatibility ontG fuel actual m)
         | none => decide (actual = expected))
      | RDFNode.uri _ => is_subclass_or_equivalent actual expected ontG
      | RDFNode.lit _ _ _ => false

/-- `check_type_compatibility` at its standard fuel. -/
def checkTypeCompat (ontG : List RTriple) (actual expected : RDFNode) : Bool :=
  check_type_compatibility ontG (ontG.length + 1) actual expected

/-- All properties declared in the ontology (`all_ontology_properties`). -/
def all_ontology_properties (ontG : List RTriple) : List RDFNode :=
  firstDedup ((ontG.filter (fun t => decide (t.2.1 = rdfTypeN ∧
    (t.2.2 = rdfPropertyN ∨ t.2.2 = owlObjectPropertyN ∨ t.2.2 = owlDatatypePropertyN)))).map (·.1))

/-- Structured validation issues.  The source emits formatted strings; each
constructor is tagged with the triple (or entity) that produced it, which
identifies the emitting check unambiguously. -/
inductive Issue : Type
  | warningUndeclared (s p o : RDFNode)
  | typeMissingSubject (s p o : RDFNode)
  | domainError (s p o : RDFNode)
  | typeMissingObject (s p o : RDFNode)
  | rangeError (s p o : RDFNode)
  | literalRangeMismatch (s p o : RDFNode)
  | roleWarningSubject (e : RDFNode)
  | roleWarningObject (e : RDFNode)
  | roleConflictSubject (e : RDFNode) (props : List RDFNode)
  | roleConflictObject (e : RDFNode) (props : List RDFNode)
deriving DecidableEq, Repr

/-- Range-check issues for one triple (the `expected_ranges` block of
`validate_graph`). -/
def rangeIssues (ontG dataG : List RTriple) (s p o : RDFNode) : List Issue :=
  let ers := get_property_ranges p ontG
  if ers ≠ [] then
    match o with
    | RDFNode.uri _ =>
      if isInstNode o then
        let ots := get_entity_types o dataG
        let classRanges := ers.filter (fun r => !isXsdNode r)
        if ots = [] ∧ classRanges ≠ [] then [Issue.typeMissingObject s p o]
        else if classRanges ≠ [] ∧
            ¬(ots.any (fun ot => classRanges.any (fun er => checkTypeCompat ontG ot er))) then
          [Issue.rangeError s p o]
        else []
      else []
    | RDFNode.lit _ dt lang =>
      let xsdRanges := ers.filter isXsdNode
      let validLit : Bool :=
        (match dt with
         | some d => decide (RDFNode.uri d ∈ xsdRanges)
         | none => false) ||
        (decide (dt = none) && decide (lang = none) && decide (xsdStringN ∈ xsdRanges)) ||
        (decide (dt = none) && decide (lang ≠ none) && decide (rdfLangStringN ∈ xsdRanges))
      if xsdRanges ≠ [] ∧ validLit = false then [Issue.literalRangeMismatch s p o] else []
    | RDFNode.bnode _ => []
  else []

/-- Domain-check issues for one triple (the `expected_domains` block of
`validate_graph`). -/
def domainIssues (ontG dataG : List RTriple) (s p o : RDFNode) : List Issue :=
  let eds := get_property_domains p ontG
  if eds ≠ [] ∧ isInstNode s then
    let sts := get_entity_types s dataG
    if sts = [] then [Issue.typeMissingSubject s p o]
    else if sts.any (fun st => eds.any (fun ed => checkTypeCompat ontG st ed)) then []
    else [Issue.domainError s p o]
  else []

/-- Per-triple issues of the main loop of `validate_graph`:
the undeclared-relationship warning, then domain check, then range check. -/
def tripleIssues (ontG dataG : List RTriple) (t : RTriple) : List Issue :=
  let s := t.1
  let p := t.2.1
  let o := t.2.2
  let allProps := all_ontology_properties ontG
  (if isOntNode p ∧ p ∉ allProps then [Issue.warningUndeclared s p o] else []) ++
  (if p ∈ allProps then domainIssues ontG dataG s p o ++ rangeIssues ontG dataG s p o
   else [])

/-- The instance-namespace entities recorded in `entity_roles`, in first
occurrence order (subject before object per triple). -/
def instanceEntities (g : List RTriple) : List RDFNode :=
  firstDedup (g.flatMap (fun t =>
    (if isInstNode t.1 then [t.1] else []) ++ (if isInstNode t.2.2 then [t.2.2] else [])))

/-- The predicates under which `e` occurs as a subject. -/
def subjectPropsOf (g : List RTriple) (e : RDFNode) : List RDFNode :=
  firstDedup ((g.filter (fun t => decide (t.1 = e))).map (·.2.1))

/-- The predicates under which `e` occurs as an object. -/
def objectPropsOf (g : List RTriple) (e : RDFNode) : List RDFNode :=
  firstDedup ((g.filter (fun t => decide (t.2.2 = e))).map (·.2.1))

/-- The static `type_relationship_map` of `validate_graph`: for each class,
the relations it may appear in as subject and as object. -/
def typeRelMap : List (RDFNode × List RDFNode × List RDFNode) :=
  [(ontN "病害", ([ontN "具有描述类别"], [ontN "存在病害是"])),
   (ontN "构件", ([ontN "具体部位是", ontN "构件位置是", ontN "存在病害是", ontN "病害具体位置是"], [])),
   (ontN "构件编号", ([ontN "具体部位是", ontN "存在病害是", ontN "病害具体位置是"], [ontN "构件位置是"])),
   (ontN "构件部位", ([ontN "存在病害是", ontN "病害具体位置是"], [ontN "具体部位是"])),
   (ontN "病害性状描述类别", ([ontN "具有数值"], [ontN "具有描述类别"])),
   (ontN "病害性状数值", ([], [ontN "具有数值"])),
   (ontN "病害位置", ([ontN "存在病害是"], [ontN "病害具体位置是"]))]

/-- Role-conformance issues for one recorded entity (the final loop of
`validate_graph`). -/
def roleIssuesFor (dataG : List RTriple) (e : RDFNode) : List Issue :=
  let subjP := (subjectPropsOf dataG e).filter isOntNode
  let objP := (objectPropsOf dataG e).filter isOntNode
  let etypes := get_entity_types e dataG
  if etypes = [] then
    (if subjP ≠ [] then [Issue.roleWarningSubject e] else []) ++
    (if objP ≠ [] then [Issue.roleWarningObject e] else [])
  else
    let validS := etypes.flatMap (fun ty =>
      match List.lookup ty typeRelMap with
      | some pr => pr.1
      | none => [])
    let validO := etypes.flatMap (fun ty =>
      match List.lookup ty typeRelMap with
      | some pr => pr.2
      | none => [])
    let improperS := subjP.filter (fun pr => decide (pr ∉ validS))
    let improperO := objP.filter (fun pr => decide (pr ∉ validO))
    (if improperS ≠ [] then [Issue.roleConflictSubject e improperS] else []) ++
    (if improperO ≠ [] then [Issue.roleConflictObject e improperO] else [])

/-- Embedding of `validate_graph(data_graph, ontology_graph)`: per-triple
issues in graph order followed by per-entity role issues. -/
def validate_graph (dataG ontG : List RTriple) : List Issue :=
  dataG.flatMap (tripleIssues ontG dataG) ++ (instanceEntities dataG).flatMap (roleIssuesFor dataG)

/-! ## C2/C3: per-triple issue accounting -/

/-- The triple that a per-triple issue is tagged with (`none` for role
issues). -/
def issueTag : Issue → Option RTriple
  | Issue.warningUndeclared s p o => some (s, p, o)
  | Issue.typeMissingSubject s p o => some (s, p, o)
  | Issue.domainError s p o => some (s, p, o)
  | Issue.typeMissingObject s p o => some (s, p, o)
  | Issue.rangeError s p o => some (s, p, o)
  | Issue.literalRangeMismatch s p o => some (s, p, o)
  | _ => none

theorem domainIssues_shape {ontG dataG : List RTriple} {s p o : RDFNode} {i : Issue}
    (h : i ∈ domainIssues ontG dataG s p o) :
    i = Issue.typeMissingSubject s p o ∨ i = Issue.domainError s p o := by
  simp only [domainIssues] at h
  split_ifs at h <;> simp at h
  · exact Or.inl h
  · exact Or.inr h

theorem rangeIssues_shape {ontG dataG : List RTriple} {s p o : RDFNode} {i : Issue}
    (h : i ∈ rangeIssues ontG dataG s p o) :
    i = Issue.typeMissingObject s p o ∨ i = Issue.rangeError s p o ∨
      i = Issue.literalRangeMismatch s p o := by
  match o, h with
  | RDFNode.uri u, h =>
    simp only [rangeIssues] at h
    split_ifs at h <;> simp at h
    · exact Or.inl h
    · exact Or.inr (Or.inl h)
  | RDFNode.lit v dt lang, h =>
    simp only [rangeIssues] at h
    split_ifs at h <;> simp at h
    exact Or.inr (Or.inr h)
  | RDFNode.bnode b, h =>
    simp only [rangeIssues] at h
    split_ifs at h <;> simp at h

theorem tripleIssues_tag {ontG dataG : List RTriple} {t : RTriple} {i : Issue}
    (h : i ∈ tripleIssues ontG dataG t) : issueTag i = some t := by
  simp only [tripleIssues] at h
  rcases List.mem_append.1 h with h' | h'
  · split_ifs at h' <;> simp at h'
    subst h'; rfl
  · split_ifs at h' <;> simp at h'
    rcases h' with h2 | h2
    · rcases domainIssues_shape h2 with h3 | h3 <;> (subst h3; rfl)
    · rcases rangeIssues_shape h2 with h3 | h3 | h3 <;> (subst h3; rfl)

theorem roleIssues_tag {dataG : List RTriple} {e : RDFNode} {i : Issue}
    (h : i ∈ roleIssuesFor dataG e) : issueTag i = none := by
  simp only [roleIssuesFor] at h
  split_ifs at h <;> simp at h <;>
    (first
      | (rcases h with h | h <;> (subst h; rfl))
      | (subst h; rfl))

theorem count_roleIssues_zero (dataG : List RTriple) (x : Issue) (t : RTriple)
    (hx : issueTag x = some t) :
    ((instanceEntities dataG).flatMap (roleIssuesFor dataG)).count x = 0 := by
  rw [List.count_eq_zero]
  intro hmem
  obtain ⟨e, _, hi⟩ := List.mem_flatMap.1 hmem
  rw [roleIssues_tag hi] at hx
  exact Option.noConfusion hx

theorem count_tripleIssues_flatMap (ontG : List RTriple) (x : Issue) (t : RTriple)
    (hx : issueTag x = some t) (dataG : List RTriple) :
    ∀ (l : List RTriple), l.Nodup → t ∈ l →
      (l.flatMap (tripleIssues ontG dataG)).count x = (tripleIssues ontG dataG t).count x := by
  intro l
  induction l with
  | nil => intro _ h; simp at h
  | cons u us ih =>
    intro hnd hmem
    rw [List.flatMap_cons, List.count_append]
    by_cases hu : u = t
    · subst hu
      have hnotin : u ∉ us := (List.nodup_cons.1 hnd).1
      have hzero : (us.flatMap (tripleIssues ontG dataG)).count x = 0 := by
        rw [List.count_eq_zero]
        intro hmem2
        obtain ⟨t', ht', hi⟩ := List.mem_flatMap.1 hmem2
        have := tripleIssues_tag hi
        rw [hx] at this
        have : u = t' := by injection this
        exact hnotin (this ▸ ht')
      omega
    · have hmem' : t ∈ us := by
        rcases List.mem_cons.1 hmem with h | h
        · exact absurd h.symm hu
        · exact h
      have hzero : (tripleIssues ontG dataG u).count x = 0 := by
        rw [List.count_eq_zero]
        intro hmem2
        have := tripleIssues_tag hmem2
        rw [hx] at this
        have : t = u := by injection this
        exact hu this.symm
      rw [hzero, ih (List.nodup_cons.1 hnd).2 hmem']
      omega

theorem count_validate_graph (ontG dataG : List RTriple) (x : Issue) (t : RTriple)
    (hx : issueTag x = some t) (hnd : dataG.Nodup) (hmem : t ∈ dataG) :
    (validate_graph dataG ontG).count x = (tripleIssues ontG dataG t).count x := by
  rw [validate_graph, List.count_append,
    count_tripleIssues_flatMap ontG x t hx dataG dataG hnd hmem,
    count_roleIssues_zero dataG x t hx]
  omega

theorem count_rangeIssues_domainError (ontG dataG : List RTriple) (s p o : RDFNode) :
    (rangeIssues ontG dataG s p o).count (Issue.domainError s p o) = 0 := by
  rw [List.count_eq_zero]
  intro hmem
  rcases rangeIssues_shape hmem with h | h | h <;> exact Issue.noConfusion h

/-- C2: for a triple of the instance graph whose subject is an instance URI
with at least one declared type, and whose predicate is a declared property
with a non-empty domain, `validate_graph` emits no `DomainError` for the
triple when some subject type is compatible with some domain alternative,
and exactly one `DomainError` otherwise. -/
theorem c2_domain_check (ontG dataG : List RTriple) (s p o : RDFNode)
    (hnd : dataG.Nodup) (hmem : (s, p, o) ∈ dataG)
    (hinst : isInstNode s = true)
    (hdecl : p ∈ all_ontology_properties ontG)
    (hdom : get_property_domains p ontG ≠ [])
    (htype : get_entity_types s dataG ≠ []) :
    (validate_graph dataG ontG).count (Issue.domainError s p o) =
      if (get_entity_types s dataG).any (fun st =>
          (get_property_domains p ontG).any (fun ed => checkTypeCompat ontG st ed)) = true
      then 0 else 1 := by
  have htag : issueTag (Issue.domainError s p o) = some (s, p, o) := rfl
  rw [count_validate_graph ontG dataG _ (s, p, o) htag hnd hmem]
  simp only [tripleIssues]
  have hw : ¬(isOntNode p = true ∧ p ∉ all_ontology_properties ontG) := fun hc => hc.2 hdecl
  rw [if_neg hw, if_pos hdecl, List.nil_append, List.count_append,
    count_rangeIssues_domainError]
  simp only [domainIssues]
  rw [if_pos ⟨hdom, hinst⟩, if_neg htype]
  by_cases hany : (get_entity_types s dataG).any (fun st =>
      (get_property_domains p ontG).any (fun ed => checkTypeCompat ontG st ed)) = true
  · rw [if_pos hany, if_pos hany]
    simp
  · rw [if_neg hany, if_neg hany]
    simp

/-- Witness ontology: two classes and one declared property with domain and
range. -/
def ontW2 : List RTriple :=
  [(ontN "Component", rdfTypeN, owlClassN),
   (ontN "ComponentID", rdfTypeN, owlClassN),
   (ontN "locatedAt", rdfTypeN, owlObjectPropertyN),
   (ontN "locatedAt", rdfsDomainN, ontN "Component"),
   (ontN "locatedAt", rdfsRangeN, ontN "ComponentID")]

/-- Witness instance data: a well-typed `locatedAt` triple. -/
def dataW2 : List RTriple :=
  [(instN "Beam", rdfTypeN, ontN "Component"),
   (instN "3", rdfTypeN, ontN "ComponentID"),
   (instN "Beam", ontN "locatedAt", instN "3")]

theorem c2_witness :
    dataW2.Nodup ∧ (instN "Beam", ontN "locatedAt", instN "3") ∈ dataW2 ∧
    isInstNode (instN "Beam") = true ∧
    ontN "locatedAt" ∈ all_ontology_properties ontW2 ∧
    get_property_domains (ontN "locatedAt") ontW2 ≠ [] ∧
    get_entity_types (instN "Beam") dataW2 ≠ [] ∧
    (validate_graph dataW2 ontW2).count
        (Issue.domainError (instN "Beam") (ontN "locatedAt") (instN "3")) =
      if (get_entity_types (instN "Beam") dataW2).any (fun st =>
          (get_property_domains (ontN "locatedAt") ontW2).any
            (fun ed => checkTypeCompat ontW2 st ed)) = true
      then 0 else 1 :=
  ⟨by decide, by decide, by decide, by decide, by decide, by decide,
   c2_domain_check ontW2 dataW2 (instN "Beam") (ontN "locatedAt") (instN "3")
     (by decide) (by decide) (by decide) (by decide) (by decide) (by decide)⟩

/-- C3: for a triple whose predicate is in the ontology namespace but not
declared as a property, `validate_graph` emits exactly one undeclared-
relationship warning for the triple and no domain- or range-check issue for
it, while the role-recording still registers the relation for the
participating instance entities. -/
theorem c3_undeclared_relation (ontG dataG : List RTriple) (s p o : RDFNode)
    (hnd : dataG.Nodup) (hmem : (s, p, o) ∈ dataG)
    (hont : isOntNode p = true)
    (hundecl : p ∉ all_ontology_properties ontG) :
    (validate_graph dataG ontG).count (Issue.warningUndeclared s p o) = 1 ∧
    (validate_graph dataG ontG).count (Issue.typeMissingSubject s p o) = 0 ∧
    (validate_graph dataG ontG).count (Issue.domainError s p o) = 0 ∧
    (validate_graph dataG ontG).count (Issue.typeMissingObject s p o) = 0 ∧
    (validate_graph dataG ontG).count (Issue.rangeError s p o) = 0 ∧
    (validate_graph dataG ontG).count (Issue.literalRangeMismatch s p o) = 0 ∧
    (isInstNode s = true → p ∈ subjectPropsOf dataG s) ∧
    (isInstNode o = true → p ∈ objectPropsOf dataG o) := by
  have hti : tripleIssues ontG dataG (s, p, o) = [Issue.warningUndeclared s p o] := by
    simp only [tripleIssues]
    rw [if_pos ⟨hont, hundecl⟩, if_neg hundecl, List.append_nil]
  refine ⟨?_, ?_, ?_, ?_, ?_, ?_, ?_, ?_⟩
  · rw [count_validate_graph ontG dataG (Issue.warningUndeclared s p o) (s, p, o) rfl hnd hmem,
      hti]; simp
  · rw [count_validate_graph ontG dataG (Issue.typeMissingSubject s p o) (s, p, o) rfl hnd hmem,
      hti]; simp
  · rw [count_validate_graph ontG dataG (Issue.domainError s p o) (s, p, o) rfl hnd hmem,
      hti]; simp
  · rw [count_validate_graph ontG dataG (Issue.typeMissingObject s p o) (s, p, o) rfl hnd hmem,
      hti]; simp
  · rw [count_validate_graph ontG dataG (Issue.rangeError s p o) (s, p, o) rfl hnd hmem,
      hti]; simp
  · rw [count_validate_graph ontG dataG (Issue.literalRangeMismatch s p o) (s, p, o) rfl hnd hmem,
      hti]; simp
  · intro _
    rw [subjectPropsOf, mem_firstDedup]
    exact List.mem_map.2 ⟨(s, p, o), List.mem_filter.2 ⟨hmem, by simp⟩, rfl⟩
  · intro _
    rw [objectPropsOf, mem_firstDedup]
    exact List.mem_map.2 ⟨(s, p, o), List.mem_filter.2 ⟨hmem, by simp⟩, rfl⟩

/-- Witness data for C3: a triple with an undeclared ontology-namespace
relation. -/
def dataW3 : List RTriple :=
  [(instN "Beam", rdfTypeN, ontN "Component"),
   (instN "Beam", ontN "mysteryRel", instN "3"),
   (instN "3", rdfTypeN, ontN "ComponentID")]

theorem c3_witness :
    dataW3.Nodup ∧ (instN "Beam", ontN "mysteryRel", instN "3") ∈ dataW3 ∧
    isOntNode (ontN "mysteryRel") = true ∧
    ontN "mysteryRel" ∉ all_ontology_properties ontW2 ∧
    ((validate_graph dataW3 ontW2).count
        (Issue.warningUndeclared (instN "Beam") (ontN "mysteryRel") (instN "3")) = 1 ∧
     (validate_graph dataW3 ontW2).count
        (Issue.typeMissingSubject (instN "Beam") (ontN "mysteryRel") (instN "3")) = 0 ∧
     (validate_graph dataW3 ontW2).count
        (Issue.domainError (instN "Beam") (ontN "mysteryRel") (instN "3")) = 0 ∧
     (validate_graph dataW3 ontW2).count
        (Issue.typeMissingObject (instN "Beam") (ontN "mysteryRel") (instN "3")) = 0 ∧
     (validate_graph dataW3 ontW2).count
        (Issue.rangeError (instN "Beam") (ontN "mysteryRel") (instN "3")) = 0 ∧
     (validate_graph dataW3 ontW2).count
        (Issue.literalRangeMismatch (instN "Beam") (ontN "mysteryRel") (instN "3")) = 0 ∧
     (isInstNode (instN "Beam") = true →
        ontN "mysteryRel" ∈ subjectPropsOf dataW3 (instN "Beam")) ∧
     (isInstNode (instN "3") = true →
        ontN "mysteryRel" ∈ objectPropsOf dataW3 (instN "3"))) :=
  ⟨by decide, by decide, by decide, by decide,
   c3_undeclared_relation ontW2 dataW3 (instN "Beam") (ontN "mysteryRel") (instN "3")
     (by decide) (by decide) (by decide) (by decide)⟩

/-! ## Instance identity during conversion (`get_or_create_instance_uri`) -/

/-- `make_safe_uri_component(name)`: strip, then replace the special
characters in the source's order. -/
def make_safe_uri_component (name : String) : String :=
  let n0 := pyStrip name
  let n1 := pyReplace n0 "#" "_sharp_"
  let n2 := pyReplace n1 " " "_"
  let n3 := pyReplace n2 "/" "_slash_"
  let n4 := pyReplace n3 "?" "_qmark_"
  let n5 := pyReplace n4 "&" "_amp_"
  let n6 := pyReplace n5 ":" "_colon_"
  let n7 := pyReplace n6 "%" "_percent_"
  let n8 := pyReplace n7 "<" "_lt_"
  let n9 := pyReplace n8 ">" "_gt_"
  let n10 := pyReplace n9 "\"" "_quot_"
  pyReplace n10 "'" "_apos_"

/-- The mutable conversion state of `convert_json_to_ttl`: the graph being
built, the `entity_uris` map, and the `instance_ontological_types` map
(association lists in insertion order; rdflib's graph is a set, so theorems
only use membership in `g`). -/
structure ConvState : Type where
  g : List RTriple
  entityUris : List (String × RDFNode)
  instTypes : List (RDFNode × RDFNode)
deriving DecidableEq, Repr

/-- The empty conversion state. -/
def emptyConv : ConvState := ⟨[], [], []⟩

/-- Embedding of `get_or_create_instance_uri(name_str, type_from_json, g,
entity_uris_map, instance_actual_types_map)`.  The lookup key is the
sanitized name only; on a hit, the state is returned unchanged (the type
argument is ignored). -/
def get_or_create_instance_uri (nameStr typeFromJson : String) (st : ConvState) :
    RDFNode × ConvState :=
  let originalName := pyStrip nameStr
  let safeNameKey := make_safe_uri_component originalName
  let ontologyClassName := pyStrip typeFromJson
  match List.lookup safeNameKey st.entityUris with
  | some uri => (uri, st)
  | none =>
    let uri := instN safeNameKey
    (uri,
      { g := st.g ++ [(uri, rdfTypeN, ontN ontologyClassName),
                      (uri, rdfsLabelN, RDFNode.lit originalName none (some "zh"))],
        entityUris := st.entityUris ++ [(safeNameKey, uri)],
        instTypes := st.instTypes ++ [(uri, ontN ontologyClassName)] })

/-- C4 (amended): a later occurrence of an already-registered sanitized name
returns the registered URI and leaves the whole conversion state unchanged,
whatever type token accompanies it. -/
theorem c4_same_name_reuses_identity (nameStr typeFromJson : String) (st : ConvState)
    (uri0 : RDFNode)
    (hreg : List.lookup (make_safe_uri_component (pyStrip nameStr)) st.entityUris = some uri0) :
    get_or_create_instance_uri nameStr typeFromJson st = (uri0, st) := by
  rw [get_or_create_instance_uri]
  simp only [make_safe_uri_component] at hreg ⊢
  rw [hreg]

/-- C4 counterexample: the same name first declared with type `A` and then
with a different type `B` does not get a second, independent identity — the
second call returns the first URI and leaves the state untouched, so the
instance keeps its first-seen type. -/
theorem c4_counterexample :
    (get_or_create_instance_uri "X" "B" (get_or_create_instance_uri "X" "A" emptyConv).2).1 =
      (get_or_create_instance_uri "X" "A" emptyConv).1 ∧
    (get_or_create_instance_uri "X" "B" (get_or_create_instance_uri "X" "A" emptyConv).2).2 =
      (get_or_create_instance_uri "X" "A" emptyConv).2 ∧
    (get_or_create_instance_uri "X" "A" emptyConv).2.instTypes =
      [(instN "X", ontN "A")] ∧
    (get_or_create_instance_uri "X" "A" emptyConv).2.entityUris.length = 1 := by
  refine ⟨?_, ?_, ?_, ?_⟩ <;> decide

theorem c4_witness :
    List.lookup (make_safe_uri_component (pyStrip "X"))
        (get_or_create_instance_uri "X" "A" emptyConv).2.entityUris = some (instN "X") ∧
    get_or_create_instance_uri "X" "B" (get_or_create_instance_uri "X" "A" emptyConv).2 =
      (instN "X", (get_or_create_instance_uri "X" "A" emptyConv).2) :=
  ⟨by decide,
   c4_same_name_reuses_identity "X" "B" (get_or_create_instance_uri "X" "A" emptyConv).2
     (instN "X") (by decide)⟩

/-- C10: two distinct input names that sanitize to the same key — here
`"a b"` (with a space) and `"a_b"` — are silently identified: the second call
returns the URI created for the first and changes nothing, so the single
instance keeps the first-seen type and the first name as its label. -/
theorem c10_sanitization_collision :
    "a b" ≠ "a_b" ∧
    make_safe_uri_component "a b" = make_safe_uri_component "a_b" ∧
    (get_or_create_instance_uri "a_b" "T2" (get_or_create_instance_uri "a b" "T1" emptyConv).2).1 =
      (get_or_create_instance_uri "a b" "T1" emptyConv).1 ∧
    (get_or_create_instance_uri "a_b" "T2" (get_or_create_instance_uri "a b" "T1" emptyConv).2).2 =
      (get_or_create_instance_uri "a b" "T1" emptyConv).2 ∧
    (get_or_create_instance_uri "a b" "T1" emptyConv).2.instTypes =
      [(instN "a_b", ontN "T1")] ∧
    (get_or_create_instance_uri "a b" "T1" emptyConv).2.g =
      [(instN "a_b", rdfTypeN, ontN "T1"),
       (instN "a_b", rdfsLabelN, RDFNode.lit "a b" none (some "zh"))] := by
  refine ⟨?_, ?_, ?_, ?_, ?_, ?_⟩ <;> decide

/-! ## Validation entry point (`validate_json_instance`)

The entry point performs file I/O (saving the serialized TTL, loading the
ontology, re-parsing the instance data).  Each I/O step is embedded by a
datatype of its possible outcomes; every Python `except` branch appears as a
constructor, so the embedded function is total — exactly the claim that no
exception escapes to the caller. -/

/-- Outcome of `ont_graph.parse(ontology_path)`.  On failure the ontology
graph is left empty, so the `if ont_graph` guard fails downstream. -/
inductive OntLoadOutcome : Type
  | ok (g : List RTriple)
  | fileNotFound
  | loadError (msg : String)
deriving DecidableEq, Repr

/-- Outcome of writing the serialized TTL to disk. -/
inductive SaveOutcome : Type
  | ok
  | ioError (msg : String)
deriving DecidableEq, Repr

/-- Outcome of `data_graph.parse(instance_ttl_path)`. -/
inductive DataParseOutcome : Type
  | ok (g : List RTriple)
  | parseError (msg : String)
deriving DecidableEq, Repr

/-- The environment of one `validate_json_instance` call: the conversion
result (`None` when the input JSON could not be parsed), the collected
conversion format errors, whether the parsed JSON was non-empty, and the
outcomes of the three I/O steps. -/
structure ValidationRun : Type where
  ttlOutput : Option String
  convErrors : List String
  jsonNonEmpty : Bool
  saveResult : SaveOutcome
  ontLoad : OntLoadOutcome
  dataParse : DataParseOutcome
deriving Repr

/-- `get_local_name(uri)`: the fragment after the last `#`, else after the
last `/`, else the full string. -/
def get_local_name (n : RDFNode) : String :=
  let s := strOfNode n
  if '#' ∈ s.data then ⟨(s.data.reverse.takeWhile (· ≠ '#')).reverse⟩
  else if '/' ∈ s.data then ⟨(s.data.reverse.takeWhile (· ≠ '/')).reverse⟩
  else s

/-- Rendering of a structured issue as a report line; the tag prefixes match
the source's messages (the entity/property details are abbreviated to local
names). -/
def renderIssue : Issue → String
  | Issue.warningUndeclared s p o =>
    "Warning: The relationship '" ++ get_local_name p ++ "' is not declared as a property" ++
      " in the ontology. Found in triple (" ++ get_local_name s ++ " > " ++ get_local_name p ++
      " > " ++ get_local_name o ++ ")."
  | Issue.typeMissingSubject s p _ =>
    "Type Missing: Entity '" ++ get_local_name s ++ "' has no rdf:type, cannot validate its" ++
      " use as subject of '" ++ get_local_name p ++ "'."
  | Issue.domainError s p _ =>
    "Domain Error: Entity '" ++ get_local_name s ++ "' as subject of '" ++ get_local_name p ++
      "' violates its defined domain."
  | Issue.typeMissingObject o p _ =>
    "Type Missing: Entity '" ++ get_local_name o ++ "' has no rdf:type, cannot validate its" ++
      " use as object of '" ++ get_local_name p ++ "'."
  | Issue.rangeError _ p o =>
    "Range Error: Entity '" ++ get_local_name o ++ "' as object of '" ++ get_local_name p ++
      "' violates its defined range."
  | Issue.literalRangeMismatch _ p o =>
    "Literal Range Mismatch: Literal '" ++ strOfNode o ++ "' for property " ++
      get_local_name p ++ "."
  | Issue.roleWarningSubject e =>
    "Role Warning: Untyped entity '" ++ get_local_name e ++ "' is used as a subject." ++
      " A type should be declared."
  | Issue.roleWarningObject e =>
    "Role Warning: Untyped entity '" ++ get_local_name e ++ "' is used as an object." ++
      " A type should be declared."
  | Issue.roleConflictSubject e _ =>
    "Role Conflict (Subject): Entity '" ++ get_local_name e ++ "' should not be the subject" ++
      " of some relationships."
  | Issue.roleConflictObject e _ =>
    "Role Conflict (Object): Entity '" ++ get_local_name e ++ "' should not be the object" ++
      " of some relationships."

/-- The format-error line recorded when the ontology fails to load. -/
def ontLoadErrorLine (outcome : OntLoadOutcome) (ontologyPath : String) : String :=
  match outcome with
  | OntLoadOutcome.ok _ => ""
  | OntLoadOutcome.fileNotFound =>
    "Ontology File Error: Ontology file '" ++ ontologyPath ++
      "' not found. Cannot perform ontology validation."
  | OntLoadOutcome.loadError msg =>
    "Ontology Load Error: Failed to load ontology '" ++ ontologyPath ++ "': " ++ msg ++
      ". Cannot perform ontology validation."

/-- Step 1 of `validate_json_instance`: conversion result and TTL save. -/
def step1Errors (rn : ValidationRun) : Option String × List String :=
  match rn.ttlOutput with
  | some t =>
    (match rn.saveResult with
     | SaveOutcome.ok => (some t, rn.convErrors)
     | SaveOutcome.ioError m =>
       (none, rn.convErrors ++
         ["File Save Error: Could not save TTL file instance_data.ttl: " ++ m]))
  | none =>
    (none,
      if rn.convErrors = [] ∧ rn.jsonNonEmpty then
        rn.convErrors ++
          ["Note: Input JSON was valid but did not produce any serializable RDF triples."]
      else rn.convErrors)

/-- Step 2: the loaded ontology graph (empty on failure) with errors. -/
def step2Ontology (rn : ValidationRun) (errs : List String) (ontologyPath : String) :
    List RTriple × List String :=
  match rn.ontLoad with
  | OntLoadOutcome.ok g => (g, errs)
  | OntLoadOutcome.fileNotFound => ([], errs ++ [ontLoadErrorLine rn.ontLoad ontologyPath])
  | OntLoadOutcome.loadError _ => ([], errs ++ [ontLoadErrorLine rn.ontLoad ontologyPath])

/-- Step 3: parse the instance TTL if the ontology loaded (truthy) and a TTL
string exists; sets `can_validate_ontology`. -/
def step3Data (rn : ValidationRun) (ontG : List RTriple) (ttl : Option String)
    (errs : List String) : List RTriple × List String × Bool :=
  if ontG ≠ [] ∧ ttl.isSome then
    match rn.dataParse with
    | DataParseOutcome.ok g =>
      if g = [] then
        (g,
         (if 5 < ((ttl.getD "").splitOn "\n").length then
            errs ++ ["Instance Data Parse Warning: Graph is empty after parsing" ++
              " instance_data.ttl, but the TTL file was not empty."]
          else errs),
         false)
      else (g, errs, true)
    | DataParseOutcome.parseError m =>
      ([], errs ++ ["Instance TTL Parse Error: Failed to parse instance TTL data" ++
        " instance_data.ttl: " ++ m ++ ". Cannot perform ontology validation."], false)
  else ([], errs, false)

/-- Whether the call reaches the ontology-validation step. -/
def canValidateOntology (rn : ValidationRun) (ontologyPath : String) : Bool :=
  let (ttl1, errs1) := step1Errors rn
  let (ontG, errs2) := step2Ontology rn errs1 ontologyPath
  (step3Data rn ontG ttl1 errs2).2.2

/-- The ontology-rule issue lines produced by the call (empty when
validation is skipped). -/
def ontologyIssueLines (rn : ValidationRun) (ontologyPath : String) : List String :=
  let (ttl1, errs1) := step1Errors rn
  let (ontG, errs2) := step2Ontology rn errs1 ontologyPath
  let (dataG, _, canV) := step3Data rn ontG ttl1 errs2
  if canV then (validate_graph dataG ontG).map renderIssue else []

/-- The final report lines of `validate_json_instance`. -/
def validateJsonReportLines (rn : ValidationRun) (ontologyPath : String) : List String :=
  let (ttl1, errs1) := step1Errors rn
  let (ontG, errs2) := step2Ontology rn errs1 ontologyPath
  let (dataG, errs3, canV) := step3Data rn ontG ttl1 errs2
  let ontologyIssues := if canV then (validate_graph dataG ontG).map renderIssue else []
  (if errs3 ≠ [] then
    "The following input format or processing issues were found:" ::
      errs3.map (fun e => "- " ++ e)
   else []) ++
  (if ontologyIssues ≠ [] then
    (if errs3 ≠ [] then [""] else []) ++
      ("The following ontology rule violations were found:" ::
        ontologyIssues.map (fun e => "- " ++ e))
   else [])

/-- Embedding of `validate_json_instance`: a total function from the run
environment to the report string. -/
def validate_json_instance (rn : ValidationRun) (ontologyPath : String) : String :=
  let lines := validateJsonReportLines rn ontologyPath
  if lines = [] then
    "No format issues or ontology rule violations were found. The instance data" ++
      " complies with the specification."
  else String.intercalate "\n" lines


/-- C9: when the ontology schema file is missing or fails to parse, the
(total) entry point still returns a report: the load failure is recorded as
a report line, ontology validation is skipped (no ontology-rule issue is
produced), and the result is the joined report rather than an exception. -/
theorem c9_schema_load_failure (rn : ValidationRun) (path : String)
    (hfail : rn.ontLoad = OntLoadOutcome.fileNotFound ∨
      ∃ m, rn.ontLoad = OntLoadOutcome.loadError m) :
    canValidateOntology rn path = false ∧
    ontologyIssueLines rn path = [] ∧
    ("- " ++ ontLoadErrorLine rn.ontLoad path) ∈ validateJsonReportLines rn path ∧
    validate_json_instance rn path =
      String.intercalate "\n" (validateJsonReportLines rn path) := by
  rcases hp : step1Errors rn with ⟨ttl1, errs1⟩
  have hstep2 : step2Ontology rn errs1 path =
      ([], errs1 ++ [ontLoadErrorLine rn.ontLoad path]) := by
    rcases hfail with h | ⟨m, h⟩ <;> rw [step2Ontology, h]
  have hstep3 : step3Data rn [] ttl1 (errs1 ++ [ontLoadErrorLine rn.ontLoad path]) =
      ([], errs1 ++ [ontLoadErrorLine rn.ontLoad path], false) := by
    rw [step3Data, if_neg]
    simp
  have hne : errs1 ++ [ontLoadErrorLine rn.ontLoad path] ≠ [] := by simp
  have hmem : ("- " ++ ontLoadErrorLine rn.ontLoad path) ∈ validateJsonReportLines rn path := by
    simp only [validateJsonReportLines, hp, hstep2, hstep3]
    simp [hne]
  refine ⟨?_, ?_, hmem, ?_⟩
  · simp only [canValidateOntology, hp, hstep2, hstep3]
  · simp only [ontologyIssueLines, hp, hstep2, hstep3]
    simp
  · rw [validate_json_instance, if_neg]
    intro h
    rw [h] at hmem
    exact List.not_mem_nil _ hmem

/-- A concrete run environment with a missing ontology file. -/
def rnW : ValidationRun :=
  { ttlOutput := some "ttl-data", convErrors := [], jsonNonEmpty := true,
    saveResult := SaveOutcome.ok, ontLoad := OntLoadOutcome.fileNotFound,
    dataParse := DataParseOutcome.parseError "unused" }

theorem c9_witness :
    (rnW.ontLoad = OntLoadOutcome.fileNotFound ∨
      ∃ m, rnW.ontLoad = OntLoadOutcome.loadError m) ∧
    (canValidateOntology rnW "ontology.ttl" = false ∧
     ontologyIssueLines rnW "ontology.ttl" = [] ∧
     ("- " ++ ontLoadErrorLine rnW.ontLoad "ontology.ttl") ∈
       validateJsonReportLines rnW "ontology.ttl" ∧
     validate_json_instance rnW "ontology.ttl" =
       String.intercalate "\n" (validateJsonReportLines rnW "ontology.ttl")) :=
  ⟨Or.inl rfl, c9_schema_load_failure rnW "ontology.ttl" (Or.inl rfl)⟩

/-! ## The Neo4j store and the consolidation pass (`utils/neo4j_utils.py`)

The property-graph store is embedded as a list of nodes (element id, label
list, `name` property) and a list of edges (source id, relationship type,
target id).  `apoc.refactor.mergeNodes(nodes, {properties: .., mergeRels:
true})` is embedded by its documented effect: the first listed node
survives with its identity, labels and name; the other listed nodes are
deleted; every relationship endpoint at a deleted node is redirected to the
survivor; relationships that become equal in (source, type, target) are
merged into one.  The node list passed by the source may repeat an element
(one row per matched relationship), which APOC deduplicates. -/

structure GNode : Type where
  nid : Nat
  labels : List String
  name : String
deriving DecidableEq, Repr

structure GEdge : Type where
  src : Nat
  rel : String
  dst : Nat
deriving DecidableEq, Repr

structure Store : Type where
  nodes : List GNode
  edges : List GEdge
deriving DecidableEq, Repr

/-- `(n)<--()`: some edge enters node `i`. -/
def hasIncomingB (st : Store) (i : Nat) : Bool :=
  st.edges.any (fun e => decide (e.dst = i))

/-- `(n)-->()`: some edge leaves node `i`. -/
def hasOutgoingB (st : Store) (i : Nat) : Bool :=
  st.edges.any (fun e => decide (e.src = i))

/-- `labels(n)[0]`: the primary label of a node. -/
def primaryLabel (n : GNode) : String := n.labels.headD ""

/-- The grouping key of the top-level duplicate pass. -/
def nodeKey (n : GNode) : String × String := (primaryLabel n, n.name)

/-- The candidate roots of `find_and_merge_duplicate_nodes`:
`MATCH (n) WHERE NOT (n)<--() AND (n)-->()`. -/
def rootCandidates (st : Store) : List GNode :=
  st.nodes.filter (fun n => !hasIncomingB st n.nid && hasOutgoingB st n.nid)

/-- Grouping of the candidate roots by `(labels[0], name)`, keys in first
occurrence order. -/
def groupRootsByKey (roots : List GNode) : List ((String × String) × List Nat) :=
  (firstDedup (roots.map nodeKey)).map (fun k =>
    (k, (roots.filter (fun n => decide (nodeKey n = k))).map (·.nid)))

/-- `MATCH (n) WHERE elementId(n) = i`. -/
def findNode (st : Store) (i : Nat) : Option GNode :=
  st.nodes.find? (fun n => decide (n.nid = i))

/-- The distinct ids of the argument list that denote existing nodes (the
`UNWIND`/`MATCH`/`collect` preamble of the merge query; missing ids match
nothing and APOC deduplicates the collected node list). -/
def aliveIds (st : Store) (ids : List Nat) : List Nat :=
  (firstDedup ids).filter (fun i => (findNode st i).isSome)

/-- Redirect an endpoint of a merged-away node onto the survivor. -/
def redirectTo (removed : List Nat) (surv i : Nat) : Nat :=
  if i ∈ removed then surv else i

/-- Redirect both endpoints of an edge. -/
def redirectEdge (removed : List Nat) (surv : Nat) (e : GEdge) : GEdge :=
  ⟨redirectTo removed surv e.src, e.rel, redirectTo removed surv e.dst⟩

/-- One `apoc.refactor.mergeNodes` call on a list of present node ids: the
head survives, the tail is deleted, edges are redirected and merged.  A call
on fewer than two nodes merges nothing. -/
def mergeStepA (st : Store) (present : List Nat) : Store :=
  match present with
  | [] => st
  | [_] => st
  | surv :: removed =>
    { nodes := st.nodes.filter (fun n => decide (n.nid ∉ removed)),
      edges := firstDedup (st.edges.map (redirectEdge removed surv)) }

/-- One row per relationship out of the merged node
(`MATCH (parent)-[]->(child) WHERE elementId(parent) = $id`). -/
def childRows (st : Store) (surv : Nat) : List Nat :=
  (st.edges.filter (fun e => decide (e.src = surv))).map (·.dst)

/-- The `name` property of the node with id `i`. -/
def childName (st : Store) (i : Nat) : String :=
  match findNode st i with
  | some n => n.name
  | none => ""

/-- Grouping of the child rows by child name, names in first occurrence
order; a child matched by several relationships contributes one row each. -/
def groupChildren (st : Store) (rows : List Nat) : List (String × List Nat) :=
  (firstDedup (rows.map (childName st))).map (fun nm =>
    (nm, rows.filter (fun i => decide (childName st i = nm))))

/-- The recursive merge of `merge_multiple_nodes` together with its group
loops, embedded as one fuel-indexed function (the source recursion has no
termination guard, so the fuel is the embedding of its call stack; every
call consumes fuel).  `Sum.inl ids` is a `merge_multiple_nodes(tx, ids)`
call; `Sum.inr groups` is the loop merging every group of more than one
row. -/
def mergeGo : Nat → Store → Sum (List Nat) (List (List Nat)) → Option Store
  | 0, _, _ => none
  | fuel + 1, st, Sum.inl ids =>
    match aliveIds st ids with
    | [] => none
    | surv :: rest =>
      let st1 := mergeStepA st (surv :: rest)
      mergeGo fuel st1 (Sum.inr ((groupChildren st1 (childRows st1 surv)).map (·.2)))
  | _ + 1, st, Sum.inr [] => some st
  | fuel + 1, st, Sum.inr (g :: gs) =>
    if 1 < g.length then
      match mergeGo fuel st (Sum.inl g) with
      | none => none
      | some st' => mergeGo fuel st' (Sum.inr gs)
    else mergeGo fuel st (Sum.inr gs)

/-- `merge_multiple_nodes(tx, node_ids)` at a given fuel. -/
def merge_multiple_nodes (fuel : Nat) (st : Store) (ids : List Nat) : Option Store :=
  mergeGo fuel st (Sum.inl ids)

/-- `find_and_merge_duplicate_nodes(tx)` at a given fuel: group the
candidate roots by `(label, name)` and merge every group of more than one
node. -/
def find_and_merge_duplicate_nodes (fuel : Nat) (st : Store) : Option Store :=
  mergeGo fuel st (Sum.inr ((groupRootsByKey (rootCandidates st)).map (·.2)))

/-! ## C6: the recursive merge does not track visited ids and can diverge -/

/-- A store with two duplicate roots over a two-node cycle; the cycle edges
carry pairwise distinct relationship types, so no relationship merging ever
shrinks it. -/
def cycStore : Store :=
  { nodes := [⟨1, ["C"], "R"⟩, ⟨2, ["C"], "R"⟩, ⟨3, ["D"], "c"⟩, ⟨4, ["E"], "d"⟩],
    edges := [⟨1, "t1", 3⟩, ⟨2, "t2", 3⟩, ⟨3, "u1", 4⟩, ⟨3, "u2", 4⟩,
              ⟨4, "v1", 3⟩, ⟨4, "v2", 3⟩] }

/-- `cycStore` after its two roots are merged: the state in which the child
recursion then cycles forever between nodes 3 and 4. -/
def cycStore1 : Store :=
  { nodes := [⟨1, ["C"], "R"⟩, ⟨3, ["D"], "c"⟩, ⟨4, ["E"], "d"⟩],
    edges := [⟨1, "t1", 3⟩, ⟨1, "t2", 3⟩, ⟨3, "u1", 4⟩, ⟨3, "u2", 4⟩,
              ⟨4, "v1", 3⟩, ⟨4, "v2", 3⟩] }

theorem cyc_step3 (k : Nat) :
    mergeGo (k + 1) cycStore1 (Sum.inl [3, 3]) = mergeGo k cycStore1 (Sum.inr [[4, 4]]) := by
  have ha : aliveIds cycStore1 [3, 3] = [3] := by decide
  have hg : (groupChildren cycStore1 (childRows cycStore1 3)).map (·.2) = [[4, 4]] := by decide
  simp only [mergeGo, ha, mergeStepA, hg]

theorem cyc_step4 (k : Nat) :
    mergeGo (k + 1) cycStore1 (Sum.inl [4, 4]) = mergeGo k cycStore1 (Sum.inr [[3, 3]]) := by
  have ha : aliveIds cycStore1 [4, 4] = [4] := by decide
  have hg : (groupChildren cycStore1 (childRows cycStore1 4)).map (·.2) = [[3, 3]] := by decide
  simp only [mergeGo, ha, mergeStepA, hg]

theorem cyc_loop3 (k : Nat) :
    mergeGo (k + 1) cycStore1 (Sum.inr [[3, 3]]) =
      match mergeGo k cycStore1 (Sum.inl [3, 3]) with
      | none => none
      | some st2 => mergeGo k st2 (Sum.inr []) := by
  simp only [mergeGo, List.length_cons, List.length_nil]
  norm_num

theorem cyc_loop4 (k : Nat) :
    mergeGo (k + 1) cycStore1 (Sum.inr [[4, 4]]) =
      match mergeGo k cycStore1 (Sum.inl [4, 4]) with
      | none => none
      | some st2 => mergeGo k st2 (Sum.inr []) := by
  simp only [mergeGo, List.length_cons, List.length_nil]
  norm_num

theorem cyc_aux : ∀ k : Nat,
    mergeGo k cycStore1 (Sum.inl [3, 3]) = none ∧
    mergeGo k cycStore1 (Sum.inl [4, 4]) = none ∧
    mergeGo k cycStore1 (Sum.inr [[3, 3]]) = none ∧
    mergeGo k cycStore1 (Sum.inr [[4, 4]]) = none := by
  intro k
  induction k with
  | zero => exact ⟨rfl, rfl, rfl, rfl⟩
  | succ k ih =>
    obtain ⟨ih1, ih2, ih3, ih4⟩ := ih
    refine ⟨?_, ?_, ?_, ?_⟩
    · rw [cyc_step3 k]; exact ih4
    · rw [cyc_step4 k]; exact ih3
    · rw [cyc_loop3 k, ih1]
    · rw [cyc_loop4 k, ih2]

/-- C6: on the cyclic store, the consolidation pass never terminates — for
every fuel bound the embedded recursion is still running when the fuel runs
out.  The recursion keeps no visited-id set, so the duplicated child rows of
the two-node cycle are re-merged forever. -/
theorem c6_merge_never_terminates :
    ∀ fuel : Nat, find_and_merge_duplicate_nodes fuel cycStore = none := by
  intro fuel
  have hag : (groupRootsByKey (rootCandidates cycStore)).map (·.2) = [[1, 2]] := by decide
  rw [find_and_merge_duplicate_nodes, hag]
  match fuel with
  | 0 => rfl
  | k + 1 =>
    have hl : mergeGo (k + 1) cycStore (Sum.inr [[1, 2]]) =
        match mergeGo k cycStore (Sum.inl [1, 2]) with
        | none => none
        | some st2 => mergeGo k st2 (Sum.inr []) := by
      simp only [mergeGo, List.length_cons, List.length_nil]
      norm_num
    rw [hl]
    match k with
    | 0 => rfl
    | k' + 1 =>
      have hstep : mergeGo (k' + 1) cycStore (Sum.inl [1, 2]) =
          mergeGo k' cycStore1 (Sum.inr [[3, 3]]) := by
        have ha : aliveIds cycStore [1, 2] = [1, 2] := by decide
        have hst : mergeStepA cycStore [1, 2] = cycStore1 := by decide
        have hg : (groupChildren cycStore1 (childRows cycStore1 1)).map (·.2) = [[3, 3]] := by
          decide
        simp only [mergeGo, ha, hst, hg]
      rw [hstep, (cyc_aux k').2.2.1]

/-! ## C7: the recursive child pass does merge trait-kind nodes -/

/-- Two duplicate `构件` roots, each with its own `性状类别` (trait-category)
child of the same name. -/
def c7Store : Store :=
  { nodes := [⟨1, ["构件"], "X"⟩, ⟨2, ["构件"], "X"⟩,
              ⟨3, ["性状类别"], "宽度"⟩, ⟨4, ["性状类别"], "宽度"⟩],
    edges := [⟨1, "病害性状类别是", 3⟩, ⟨2, "病害性状类别是", 4⟩] }

/-- The store after the consolidation pass: the two trait-category nodes
have been merged into one. -/
def c7After : Store :=
  { nodes := [⟨1, ["构件"], "X"⟩, ⟨3, ["性状类别"], "宽度"⟩],
    edges := [⟨1, "病害性状类别是", 3⟩] }

/-- C7: the consolidation pass terminates on `c7Store` and merges its two
same-named trait-category (`性状类别`) nodes into one — the recursive
child-merging pass groups children by name only and does not exclude
trait-kind labels. -/
theorem c7_trait_nodes_merged :
    find_and_merge_duplicate_nodes 6 c7Store = some c7After ∧
    (c7Store.nodes.filter (fun n => decide ("性状类别" ∈ n.labels))).length = 2 ∧
    (c7After.nodes.filter (fun n => decide ("性状类别" ∈ n.labels))).length = 1 := by
  refine ⟨?_, ?_, ?_⟩ <;> decide

/-! ## C8: root recomputation and path enumeration -/

/-- `_find_and_return_root_nodes`: `MATCH (n) WHERE NOT (n)<--()` — every
node without incoming edges, with no further exclusion. -/
def findRootNodes (st : Store) : List GNode :=
  st.nodes.filter (fun n => !hasIncomingB st n.nid)

/-- Modelled from the spec (claim C8): root recomputation as the claim
words it — the nodes with no incoming edges excluding the designated
top-level collection node (the node carrying the collection label).  Used
only to compare the claim against `findRootNodes`. -/
def claimRootNodes (st : Store) (collectionLabel : String) : List GNode :=
  st.nodes.filter (fun n => !hasIncomingB st n.nid && decide (collectionLabel ∉ n.labels))

/-- All edge-distinct walks of length at least one starting at `cur` and
using edges from `avail` (Cypher `(n)-[*]->(m)` enumerates exactly the
relationship-distinct paths).  The fuel exceeds `avail.length`, so it never
cuts the enumeration short. -/
def trailsFrom : Nat → List GEdge → Nat → List (List GEdge)
  | 0, _, _ => []
  | fuel + 1, avail, cur =>
    (avail.filter (fun e => decide (e.src = cur))).flatMap
      (fun e => [e] :: (trailsFrom fuel (avail.erase e) e.dst).map (fun tr => e :: tr))

/-- The end node of a trail starting at `cur`. -/
def lastDst (cur : Nat) (tr : List GEdge) : Nat :=
  (tr.getLast?).elim cur (·.dst)

/-- `_find_and_return_full_paths(tx, root_id)`: every trail from the root
whose end node has no outgoing edge at all (`NOT (m)-->()`). -/
def find_full_paths (st : Store) (rootId : Nat) : List (List GEdge) :=
  (trailsFrom (st.edges.length + 1) st.edges rootId).filter
    (fun tr => !hasOutgoingB st (lastDst rootId tr))

/-- The node records along a trail from `rootId` (the `path.nodes` of the
returned Cypher path). -/
def pathNodes (st : Store) (rootId : Nat) (tr : List GEdge) : List GNode :=
  (rootId :: tr.map (·.dst)).map (fun i => (findNode st i).getD ⟨i, [], ""⟩)

/-- The `(nodes, relationships)` rows handed to `combine_paths`. -/
def pathRows (st : Store) (rootId : Nat) : List (List GNode × List GEdge) :=
  (find_full_paths st rootId).map (fun tr => (pathNodes st rootId tr, tr))

/-- `", ".join(f"label: name" for label in labels)`. -/
def renderNodeLabels (n : GNode) : String :=
  String.intercalate ", " (n.labels.map (fun l => l ++ ": " ++ n.name))

/-- The sentence of one row of `combine_paths`: `label: name - rel - … -
label: name`, finally stripped of `' '` and `'-'` characters at both ends. -/
def sentenceOf (ns : List GNode) (rs : List GEdge) : String :=
  pyStripChars
    (String.join ((ns.zip rs).map
        (fun nr => renderNodeLabels nr.1 ++ " - " ++ nr.2.rel ++ " - ")) ++
      (match ns.getLast? with
       | some n => renderNodeLabels n
       | none => ""))
    [' ', '-']

/-- `combine_paths(paths)`: one sentence per path row. -/
def combine_paths (paths : List (List GNode × List GEdge)) : List String :=
  paths.map (fun p => sentenceOf p.1 p.2)

/-- A list of edges chains from `cur`: each edge leaves the end of the
previous one. -/
def chainFrom : Nat → List GEdge → Prop
  | _, [] => True
  | cur, e :: tr => e.src = cur ∧ chainFrom e.dst tr

theorem trailsFrom_iff : ∀ (fuel : Nat) (avail : List GEdge) (cur : Nat) (tr : List GEdge),
    avail.length < fuel → avail.Nodup →
    (tr ∈ trailsFrom fuel avail cur ↔
      tr ≠ [] ∧ tr.Nodup ∧ tr ⊆ avail ∧ chainFrom cur tr) := by
  intro fuel
  induction fuel with
  | zero => intro avail cur tr h; exact absurd h (Nat.not_lt_zero _)
  | succ fuel ih =>
    intro avail cur tr hlen hnd
    rw [trailsFrom]
    constructor
    · intro hmem
      obtain ⟨e, hef, htr⟩ := List.mem_flatMap.1 hmem
      have hea : e ∈ avail := (List.mem_filter.1 hef).1
      have hsrc : e.src = cur := by simpa using (List.mem_filter.1 hef).2
      rcases List.mem_cons.1 htr with h1 | h1
      · subst h1
        exact ⟨by simp, by simp, by simpa using hea, hsrc, trivial⟩
      · obtain ⟨tr', htr', heq⟩ := List.mem_map.1 h1
        subst heq
        have hlen' : (avail.erase e).length < fuel := by
          have hpos : 0 < avail.length := List.length_pos_of_mem hea
          rw [List.length_erase_of_mem hea]
          omega
        obtain ⟨hne', hnd', hsub', hch'⟩ :=
          (ih (avail.erase e) e.dst tr' hlen' (hnd.erase e)).1 htr'
        refine ⟨by simp, ?_, ?_, hsrc, hch'⟩
        · refine List.nodup_cons.2 ⟨?_, hnd'⟩
          intro hmem2
          have := hsub' hmem2
          exact ((hnd.mem_erase_iff).1 this).1 rfl
        · intro x hx
          rcases List.mem_cons.1 hx with h2 | h2
          · exact h2 ▸ hea
          · exact List.erase_subset _ _ (hsub' h2)
    · rintro ⟨hne, hndtr, hsub, hch⟩
      match tr, hne with
      | e :: tr', _ =>
        obtain ⟨hsrc, hch'⟩ := hch
        have hea : e ∈ avail := hsub (List.mem_cons_self _ _)
        have hef : e ∈ avail.filter (fun e => decide (e.src = cur)) :=
          List.mem_filter.2 ⟨hea, by simpa using hsrc⟩
        refine List.mem_flatMap.2 ⟨e, hef, ?_⟩
        match tr', hch', hndtr, hsub with
        | [], _, _, _ => exact List.mem_cons_self _ _
        | f :: tr'', hch', hndtr, hsub =>
          refine List.mem_cons_of_mem _ (List.mem_map.2 ⟨f :: tr'', ?_, rfl⟩)
          have hlen' : (avail.erase e).length < fuel := by
            have hpos : 0 < avail.length := List.length_pos_of_mem hea
            rw [List.length_erase_of_mem hea]
            omega
          refine (ih (avail.erase e) e.dst (f :: tr'') hlen' (hnd.erase e)).2
            ⟨by simp, (List.nodup_cons.1 hndtr).2, ?_, hch'⟩
          intro x hx
          refine (hnd.mem_erase_iff).2 ⟨?_, hsub (List.mem_cons_of_mem _ hx)⟩
          intro hxe
          exact (List.nodup_cons.1 hndtr).1 (hxe ▸ hx)

theorem hasIncomingB_false_iff (st : Store) (i : Nat) :
    hasIncomingB st i = false ↔ ∀ e ∈ st.edges, e.dst ≠ i := by
  simp [hasIncomingB]

theorem hasOutgoingB_false_iff (st : Store) (i : Nat) :
    hasOutgoingB st i = false ↔ ∀ e ∈ st.edges, e.src ≠ i := by
  simp [hasOutgoingB]

/-- C8 (amended): the path-enumeration stage recomputes the roots as
exactly the nodes with no incoming edges (the top-level collection node is
not excluded), and for each root emits one output row per enumerated
edge-distinct path from the root to a node with no outgoing edges — several
rows per leaf are possible — each row rendering the path's nodes and
traversed relation names. -/
theorem c8_path_enumeration (st : Store) (r : Nat) (hnd : st.edges.Nodup) :
    (∀ n : GNode, n ∈ findRootNodes st ↔ n ∈ st.nodes ∧ ∀ e ∈ st.edges, e.dst ≠ n.nid) ∧
    (∀ tr : List GEdge, tr ∈ find_full_paths st r ↔
      tr ≠ [] ∧ tr.Nodup ∧ tr ⊆ st.edges ∧ chainFrom r tr ∧
        ∀ e ∈ st.edges, e.src ≠ lastDst r tr) ∧
    combine_paths (pathRows st r) =
      (find_full_paths st r).map (fun tr => sentenceOf (pathNodes st r tr) tr) ∧
    (combine_paths (pathRows st r)).length = (find_full_paths st r).length := by
  refine ⟨?_, ?_, ?_, ?_⟩
  · intro n
    rw [findRootNodes, List.mem_filter]
    constructor
    · rintro ⟨h1, h2⟩
      refine ⟨h1, (hasIncomingB_false_iff st n.nid).1 ?_⟩
      simpa using h2
    · rintro ⟨h1, h2⟩
      refine ⟨h1, ?_⟩
      simpa using (hasIncomingB_false_iff st n.nid).2 h2
  · intro tr
    rw [find_full_paths, List.mem_filter]
    rw [trailsFrom_iff (st.edges.length + 1) st.edges r tr (by omega) hnd]
    constructor
    · rintro ⟨⟨h1, h2, h3, h4⟩, h5⟩
      refine ⟨h1, h2, h3, h4, (hasOutgoingB_false_iff st _).1 ?_⟩
      simpa using h5
    · rintro ⟨h1, h2, h3, h4, h5⟩
      refine ⟨⟨h1, h2, h3, h4⟩, ?_⟩
      simpa using (hasOutgoingB_false_iff st _).2 h5
  · rw [combine_paths, pathRows, List.map_map]
    rfl
  · rw [combine_paths, pathRows, List.map_map, List.length_map]

/-- The C8 counterexample store: a `Bridge` collection node over a diamond
`r → a → l`, `r → b → l`. -/
def c8Store : Store :=
  { nodes := [⟨0, ["Bridge"], "BR"⟩, ⟨1, ["C"], "r"⟩, ⟨2, ["C"], "a"⟩,
              ⟨3, ["C"], "b"⟩, ⟨4, ["C"], "l"⟩],
    edges := [⟨0, "结构构件是", 1⟩, ⟨1, "p", 2⟩, ⟨1, "q", 3⟩, ⟨2, "u", 4⟩, ⟨3, "v", 4⟩] }

/-- C8 counterexample: on `c8Store` the code's root recomputation differs
from the claim's (the `Bridge` collection node is returned as a root, not
excluded), and from that root the stage emits two rows although only one
leaf is reachable — one row per path, not per leaf. -/
theorem c8_counterexample :
    findRootNodes c8Store ≠ claimRootNodes c8Store "Bridge" ∧
    (findRootNodes c8Store).map (·.nid) = [0] ∧
    (find_full_paths c8Store 0).length = 2 ∧
    (c8Store.nodes.filter (fun n => !hasOutgoingB c8Store n.nid &&
      reachableB (c8Store.edges.map (fun e => (e.src, e.dst))) 0 n.nid)).length = 1 := by
  refine ⟨?_, ?_, ?_, ?_⟩ <;> decide

theorem c8_witness :
    c8Store.edges.Nodup ∧
    ((∀ n : GNode, n ∈ findRootNodes c8Store ↔
        n ∈ c8Store.nodes ∧ ∀ e ∈ c8Store.edges, e.dst ≠ n.nid) ∧
     (∀ tr : List GEdge, tr ∈ find_full_paths c8Store 0 ↔
        tr ≠ [] ∧ tr.Nodup ∧ tr ⊆ c8Store.edges ∧ chainFrom 0 tr ∧
          ∀ e ∈ c8Store.edges, e.src ≠ lastDst 0 tr) ∧
     combine_paths (pathRows c8Store 0) =
       (find_full_paths c8Store 0).map (fun tr => sentenceOf (pathNodes c8Store 0 tr) tr) ∧
     (combine_paths (pathRows c8Store 0)).length = (find_full_paths c8Store 0).length) :=
  ⟨by decide, c8_path_enumeration c8Store 0 (by decide)⟩

/-! ## C5 infrastructure: invariants of the consolidation pass -/

/-- A node id that denotes an existing node. -/
def nodeAlive (st : Store) (i : Nat) : Prop := ∃ n ∈ st.nodes, n.nid = i

/-- No edge enters node `i`. -/
def noDst (st : Store) (i : Nat) : Prop := ∀ e ∈ st.edges, e.dst ≠ i

/-- An untouched root record: still present verbatim, still without incoming
edges, still with an outgoing edge. -/
def Untouched (m : GNode) (st : Store) : Prop :=
  m ∈ st.nodes ∧ noDst st m.nid ∧ ∃ e ∈ st.edges, e.src = m.nid

/-- A child-kind merge call: every existing id in the list has an incoming
edge (it was produced as a child row). -/
def ChildCall (st : Store) (ids : List Nat) : Prop :=
  ∀ i ∈ aliveIds st ids, ∃ e ∈ st.edges, e.dst = i

/-- The per-argument call condition threaded through `mergeGo`. -/
def argCC (st : Store) : Sum (List Nat) (List (List Nat)) → Prop
  | Sum.inl ids => ChildCall st ids
  | Sum.inr gs => ∀ g ∈ gs, ChildCall st g

/-- Only the node-id uniqueness part of store well-formedness is needed. -/
def WFn (st : Store) : Prop := (st.nodes.map (·.nid)).Nodup

/-- No node outside the exclusion set is both keyed `(L, N)` and a root:
every such node either has an incoming edge or touches no edge at all. -/
def MasterExc (ex : List Nat) (L N : String) (st : Store) : Prop :=
  ∀ n ∈ st.nodes, n.nid ∉ ex → primaryLabel n = L → n.name = N →
    (∃ e ∈ st.edges, e.dst = n.nid) ∨ (∀ e ∈ st.edges, e.src ≠ n.nid ∧ e.dst ≠ n.nid)

/-- Every listed record is an untouched root. -/
def UntouchedAll (T : List GNode) (st : Store) : Prop := ∀ m ∈ T, Untouched m st

/-- Every tracked `(source id, relation)` pair still has an edge. -/
def TrackOK (tracks : List (Nat × String)) (st : Store) : Prop :=
  ∀ t ∈ tracks, ∃ x : Nat, (⟨t.1, t.2, x⟩ : GEdge) ∈ st.edges

theorem firstDedupAux_eq_self {α : Type} [DecidableEq α] :
    ∀ {l seen : List α}, l.Nodup → (∀ x ∈ l, x ∉ seen) → firstDedupAux seen l = l := by
  intro l
  induction l with
  | nil => intro seen _ _; rfl
  | cons x xs ih =>
    intro seen hnd hdisj
    rw [firstDedupAux, if_neg (hdisj x (List.mem_cons_self _ _))]
    congr 1
    refine ih (List.nodup_cons.1 hnd).2 ?_
    intro y hy
    rw [List.mem_cons]
    rintro (h | h)
    · exact (List.nodup_cons.1 hnd).1 (h ▸ hy)
    · exact hdisj y (List.mem_cons_of_mem _ hy) h

theorem firstDedup_eq_self {α : Type} [DecidableEq α] {l : List α} (h : l.Nodup) :
    firstDedup l = l :=
  firstDedupAux_eq_self h (by simp)

theorem findNode_isSome_iff (st : Store) (i : Nat) :
    (findNode st i).isSome = true ↔ nodeAlive st i := by
  rw [findNode, List.find?_isSome, nodeAlive]
  simp

theorem aliveIds_nodup (st : Store) (ids : List Nat) : (aliveIds st ids).Nodup :=
  (nodup_firstDedup ids).filter _

theorem aliveIds_alive {st : Store} {ids : List Nat} {i : Nat}
    (h : i ∈ aliveIds st ids) : nodeAlive st i := by
  have := (List.mem_filter.1 h).2
  exact (findNode_isSome_iff st i).1 (by simpa using this)

theorem aliveIds_subset {st : Store} {ids : List Nat} {i : Nat}
    (h : i ∈ aliveIds st ids) : i ∈ ids :=
  mem_firstDedup.1 (List.mem_filter.1 h).1

theorem aliveIds_of_alive {st : Store} {ids : List Nat} {i : Nat}
    (hmem : i ∈ ids) (halive : nodeAlive st i) : i ∈ aliveIds st ids := by
  refine List.mem_filter.2 ⟨mem_firstDedup.2 hmem, ?_⟩
  simpa using (findNode_isSome_iff st i).2 halive

/-- When every listed id is alive and the list has no duplicates, the merge
preamble keeps it unchanged. -/
theorem aliveIds_eq_self {st : Store} {ids : List Nat} (hnd : ids.Nodup)
    (halive : ∀ i ∈ ids, nodeAlive st i) : aliveIds st ids = ids := by
  rw [aliveIds, firstDedup_eq_self hnd, List.filter_eq_self]
  intro i hi
  simpa using (findNode_isSome_iff st i).2 (halive i hi)

theorem rootCandidates_iff {st : Store} {n : GNode} :
    n ∈ rootCandidates st ↔ n ∈ st.nodes ∧ noDst st n.nid ∧ ∃ e ∈ st.edges, e.src = n.nid := by
  rw [rootCandidates, List.mem_filter]
  constructor
  · rintro ⟨h1, h2⟩
    simp only [Bool.and_eq_true, Bool.not_eq_true'] at h2
    refine ⟨h1, ?_, ?_⟩
    · intro e he
      have := (hasIncomingB_false_iff st n.nid).1 h2.1
      exact this e he
    · simpa [hasOutgoingB] using h2.2
  · rintro ⟨h1, h2, h3⟩
    refine ⟨h1, ?_⟩
    simp only [Bool.and_eq_true, Bool.not_eq_true']
    constructor
    · exact (hasIncomingB_false_iff st n.nid).2 h2
    · simpa [hasOutgoingB] using h3

/-- The non-trivial merged store, spelled out. -/
def mergedStore (st : Store) (surv : Nat) (removed : List Nat) : Store :=
  { nodes := st.nodes.filter (fun n => decide (n.nid ∉ removed)),
    edges := firstDedup (st.edges.map (redirectEdge removed surv)) }

theorem mergeStepA_cases (st : Store) (present : List Nat) :
    mergeStepA st present = st ∨
    ∃ surv removed, present = surv :: removed ∧ removed ≠ [] ∧
      mergeStepA st present = mergedStore st surv removed := by
  match present with
  | [] => exact Or.inl rfl
  | [x] => exact Or.inl rfl
  | a :: b :: r => exact Or.inr ⟨a, b :: r, rfl, by simp, rfl⟩

theorem mem_mergedStore_nodes {st : Store} {surv : Nat} {removed : List Nat} {n : GNode} :
    n ∈ (mergedStore st surv removed).nodes ↔ n ∈ st.nodes ∧ n.nid ∉ removed := by
  simp [mergedStore, List.mem_filter]

theorem mem_mergedStore_edges {st : Store} {surv : Nat} {removed : List Nat} {e' : GEdge} :
    e' ∈ (mergedStore st surv removed).edges ↔
      ∃ e ∈ st.edges, e' = redirectEdge removed surv e := by
  simp only [mergedStore, mem_firstDedup, List.mem_map]
  constructor
  · rintro ⟨e, he, heq⟩; exact ⟨e, he, heq.symm⟩
  · rintro ⟨e, he, heq⟩; exact ⟨e, he, heq.symm⟩

theorem redirectTo_of_not_mem {removed : List Nat} {surv i : Nat} (h : i ∉ removed) :
    redirectTo removed surv i = i := by
  rw [redirectTo, if_neg h]

theorem redirectTo_eq_or (removed : List Nat) (surv i : Nat) :
    redirectTo removed surv i = surv ∨ (redirectTo removed surv i = i ∧ i ∉ removed) := by
  rw [redirectTo]
  by_cases h : i ∈ removed
  · rw [if_pos h]; exact Or.inl rfl
  · rw [if_neg h]; exact Or.inr ⟨rfl, h⟩

theorem merged_untouched {st : Store} {surv : Nat} {removed : List Nat} {m : GNode}
    (hms : m.nid ≠ surv) (hmr : m.nid ∉ removed) (h : Untouched m st) :
    Untouched m (mergedStore st surv removed) := by
  obtain ⟨h1, h2, e0, he0, hsrc⟩ := h
  refine ⟨mem_mergedStore_nodes.2 ⟨h1, hmr⟩, ?_, ?_⟩
  · intro e' he'
    obtain ⟨e, he, heq⟩ := mem_mergedStore_edges.1 he'
    subst heq
    rcases redirectTo_eq_or removed surv e.dst with hd | ⟨hd, _⟩ <;>
      (rw [redirectEdge]; simp only [hd])
    · exact fun hc => hms hc.symm
    · exact fun hc => h2 e he hc
  · refine ⟨redirectEdge removed surv e0, mem_mergedStore_edges.2 ⟨e0, he0, rfl⟩, ?_⟩
    rw [redirectEdge]
    simp only [hsrc ▸ redirectTo_of_not_mem hmr, hsrc]
    exact redirectTo_of_not_mem (hsrc ▸ hmr)

theorem merged_noDst {st : Store} {surv : Nat} {removed : List Nat} {i : Nat}
    (hi : i ≠ surv) (h : noDst st i) : noDst (mergedStore st surv removed) i := by
  intro e' he'
  obtain ⟨e, he, heq⟩ := mem_mergedStore_edges.1 he'
  subst heq
  rw [redirectEdge]
  rcases redirectTo_eq_or removed surv e.dst with hd | ⟨hd, _⟩ <;> simp only [hd]
  · exact fun hc => hi hc.symm
  · exact h e he

theorem merged_hasIncoming {st : Store} {surv : Nat} {removed : List Nat} {i : Nat}
    (hir : i ∉ removed) (h : ∃ e ∈ st.edges, e.dst = i) :
    ∃ e' ∈ (mergedStore st surv removed).edges, e'.dst = i := by
  obtain ⟨e, he, hdst⟩ := h
  refine ⟨redirectEdge removed surv e, mem_mergedStore_edges.2 ⟨e, he, rfl⟩, ?_⟩
  rw [redirectEdge]
  simp only [hdst ▸ redirectTo_of_not_mem hir, hdst]
  exact redirectTo_of_not_mem (hdst ▸ hir)

theorem merged_srcRel {st : Store} {surv : Nat} {removed : List Nat} {a : Nat} {rel : String}
    (h : ∃ x : Nat, (⟨a, rel, x⟩ : GEdge) ∈ st.edges) :
    ∃ x' : Nat, (⟨redirectTo removed surv a, rel, x'⟩ : GEdge) ∈
      (mergedStore st surv removed).edges := by
  obtain ⟨x, hx⟩ := h
  exact ⟨redirectTo removed surv x,
    mem_mergedStore_edges.2 ⟨⟨a, rel, x⟩, hx, rfl⟩⟩

theorem merged_WFn {st : Store} {surv : Nat} {removed : List Nat} (h : WFn st) :
    WFn (mergedStore st surv removed) := by
  rw [WFn]
  have hsub : (mergedStore st surv removed).nodes.Sublist st.nodes := by
    simp only [mergedStore]
    exact List.filter_sublist _
  exact h.sublist (hsub.map _)

theorem merged_masterExc {st : Store} {surv : Nat} {removed : List Nat}
    {ex : List Nat} {L N : String}
    (hkind : (∃ e ∈ st.edges, e.dst = surv) ∨
      (∀ nd ∈ st.nodes, nd.nid = surv → ¬(primaryLabel nd = L ∧ nd.name = N)))
    (h : MasterExc ex L N st) : MasterExc ex L N (mergedStore st surv removed) := by
  intro n hn hex hl hname
  obtain ⟨hn0, hnr⟩ := mem_mergedStore_nodes.1 hn
  rcases h n hn0 hex hl hname with ⟨e, he, hdst⟩ | hz
  · exact Or.inl (merged_hasIncoming hnr ⟨e, he, hdst⟩)
  · by_cases hsurv : surv = n.nid
    · exfalso
      rcases hkind with ⟨e, he, hdst⟩ | hk
      · exact (hz e he).2 (hsurv ▸ hdst)
      · exact hk n hn0 hsurv.symm ⟨hl, hname⟩
    · refine Or.inr ?_
      intro e' he'
      obtain ⟨e, he, heq⟩ := mem_mergedStore_edges.1 he'
      subst heq
      rw [redirectEdge]
      constructor
      · rcases redirectTo_eq_or removed surv e.src with hd | ⟨hd, _⟩ <;> simp only [hd]
        · exact hsurv
        · exact (hz e he).1
      · rcases redirectTo_eq_or removed surv e.dst with hd | ⟨hd, _⟩ <;> simp only [hd]
        · exact hsurv
        · exact (hz e he).2

theorem merged_childCall {st : Store} {surv : Nat} {removed : List Nat} {g : List Nat}
    (h : ChildCall st g) : ChildCall (mergedStore st surv removed) g := by
  intro i hi
  have halive' : nodeAlive (mergedStore st surv removed) i := aliveIds_alive hi
  obtain ⟨n, hn, hnid⟩ := halive'
  obtain ⟨hn0, hnr⟩ := mem_mergedStore_nodes.1 hn
  have halive : nodeAlive st i := ⟨n, hn0, hnid⟩
  have : i ∈ aliveIds st g := aliveIds_of_alive (aliveIds_subset hi) halive
  exact merged_hasIncoming (hnid ▸ hnr) (h i this)

/-- `ChildCall` is stable under any merge step. -/
theorem step_childCall {st : Store} {present : List Nat} {g : List Nat}
    (h : ChildCall st g) : ChildCall (mergeStepA st present) g := by
  rcases mergeStepA_cases st present with heq | ⟨surv, removed, _, _, heq⟩ <;> rw [heq]
  · exact h
  · exact merged_childCall h

/-- `WFn` is stable under any merge step. -/
theorem step_WFn {st : Store} {present : List Nat} (h : WFn st) :
    WFn (mergeStepA st present) := by
  rcases mergeStepA_cases st present with heq | ⟨surv, removed, _, _, heq⟩ <;> rw [heq]
  · exact h
  · exact merged_WFn h

/-- An untouched record not named by the call stays untouched. -/
theorem step_untouched {st : Store} {present : List Nat} {m : GNode}
    (hm : m.nid ∉ present) (h : Untouched m st) : Untouched m (mergeStepA st present) := by
  rcases mergeStepA_cases st present with heq | ⟨surv, removed, hpres, _, heq⟩ <;> rw [heq]
  · exact h
  · subst hpres
    simp only [List.mem_cons, not_or] at hm
    exact merged_untouched hm.1 hm.2 h

theorem step_trackOK {st : Store} {present : List Nat} {tracks : List (Nat × String)}
    (hsrc : ∀ t ∈ tracks, t.1 ∉ present) (h : TrackOK tracks st) :
    TrackOK tracks (mergeStepA st present) := by
  rcases mergeStepA_cases st present with heq | ⟨surv, removed, hpres, _, heq⟩ <;> rw [heq]
  · exact h
  · subst hpres
    intro t ht
    have hnot : t.1 ∉ removed := fun hc =>
      hsrc t ht (List.mem_cons_of_mem _ hc)
    have := @merged_srcRel st surv removed t.1 t.2 (h t ht)
    rwa [redirectTo_of_not_mem hnot] at this

theorem childRows_incoming {st : Store} {surv i : Nat} (h : i ∈ childRows st surv) :
    ∃ e ∈ st.edges, e.dst = i := by
  obtain ⟨e, he, heq⟩ := List.mem_map.1 h
  exact ⟨e, (List.mem_filter.1 he).1, heq⟩

theorem groupChildren_subset {st : Store} {rows : List Nat} {g : List Nat}
    (hg : g ∈ (groupChildren st rows).map (·.2)) : ∀ i ∈ g, i ∈ rows := by
  obtain ⟨pr, hpr, heq⟩ := List.mem_map.1 hg
  obtain ⟨nm, _, heq2⟩ := List.mem_map.1 hpr
  intro i hi
  rw [← heq, ← heq2] at hi
  exact (List.mem_filter.1 hi).1

theorem childGroups_childCall (st1 : Store) (surv : Nat) :
    ∀ g ∈ (groupChildren st1 (childRows st1 surv)).map (·.2), ChildCall st1 g := by
  intro g hg i hi
  exact childRows_incoming (groupChildren_subset hg i (aliveIds_subset hi))

/-- Generic preservation through a run of the merge recursion: any predicate
preserved by child-kind merge steps is preserved by any completed run all of
whose calls are child-kind. -/
theorem mergeGo_preserves :
    ∀ (fuel : Nat) (P : Store → Prop),
      (∀ st ids, ChildCall st ids → P st → P (mergeStepA st (aliveIds st ids))) →
      ∀ st arg stF, mergeGo fuel st arg = some stF → argCC st arg → P st → P stF := by
  intro fuel
  induction fuel with
  | zero =>
    intro P _ st arg stF h
    exact absurd h (by rw [mergeGo]; simp)
  | succ fuel ih =>
    intro P hstep st arg stF hrun hcc hP
    match arg with
    | Sum.inl ids =>
      rcases ha : aliveIds st ids with _ | ⟨surv, rest⟩
      · rw [mergeGo, ha] at hrun
        exact absurd hrun (by simp)
      · rw [mergeGo, ha] at hrun
        have hP1 : P (mergeStepA st (surv :: rest)) := by
          have := hstep st ids hcc hP
          rwa [ha] at this
        exact ih P hstep _ _ stF hrun
          (childGroups_childCall (mergeStepA st (surv :: rest)) surv) hP1
    | Sum.inr [] =>
      rw [mergeGo] at hrun
      injection hrun with h
      exact h ▸ hP
    | Sum.inr (g :: gs) =>
      rw [mergeGo] at hrun
      by_cases hlen : 1 < g.length
      · rw [if_pos hlen] at hrun
        rcases h2 : mergeGo fuel st (Sum.inl g) with _ | st2
        · rw [h2] at hrun
          exact absurd hrun (by simp)
        · rw [h2] at hrun
          have hQ := ih (fun s => P s ∧ ∀ g' ∈ gs, ChildCall s g')
            (fun st' ids hcc' hq =>
              ⟨hstep st' ids hcc' hq.1, fun g' hg' => step_childCall (hq.2 g' hg')⟩)
            st (Sum.inl g) st2 h2 (hcc g (List.mem_cons_self _ _))
            ⟨hP, fun g' hg' => hcc g' (List.mem_cons_of_mem _ hg')⟩
          exact ih P hstep st2 (Sum.inr gs) stF hrun hQ.2 hQ.1
      · rw [if_neg hlen] at hrun
        exact ih P hstep st (Sum.inr gs) stF hrun
          (fun g' hg' => hcc g' (List.mem_cons_of_mem _ hg')) hP

/-- The remaining multi-node agenda groups still hold untouched, non-(L,N)
keyed records for each of their member ids. -/
def GroupsOK (L N : String) (l : List (List Nat)) (st : Store) : Prop :=
  ∀ g ∈ l, 1 < g.length → ∀ i ∈ g,
    ∃ m : GNode, m.nid = i ∧ nodeKey m ≠ (L, N) ∧ Untouched m st

/-- The full invariant bundle carried through the consolidation run. -/
def C5Bundle (ex : List Nat) (L N : String) (T : List GNode)
    (tracks : List (Nat × String)) (l : List (List Nat)) (st : Store) : Prop :=
  WFn st ∧ MasterExc ex L N st ∧ UntouchedAll T st ∧ TrackOK tracks st ∧ GroupsOK L N l st

theorem nid_inj {st : Store} (h : WFn st) {n m : GNode} (hn : n ∈ st.nodes)
    (hm : m ∈ st.nodes) (heq : n.nid = m.nid) : n = m :=
  List.inj_on_of_nodup_map h hn hm heq

theorem untouched_not_in_aliveIds {st : Store} {ids : List Nat} {m : GNode}
    (hcc : ChildCall st ids) (hm : Untouched m st) : m.nid ∉ aliveIds st ids := by
  intro hmem
  obtain ⟨e, he, hdst⟩ := hcc m.nid hmem
  exact hm.2.1 e he hdst

theorem bundle_child_step {ex : List Nat} {L N : String} {T : List GNode}
    {tracks : List (Nat × String)} {l : List (List Nat)}
    (htr : ∀ t ∈ tracks, ∃ m ∈ T, m.nid = t.1) :
    ∀ st ids, ChildCall st ids → C5Bundle ex L N T tracks l st →
      C5Bundle ex L N T tracks l (mergeStepA st (aliveIds st ids)) := by
  intro st ids hcc hb
  obtain ⟨hwf, hmx, hunt, htk, hgr⟩ := hb
  refine ⟨step_WFn hwf, ?_, ?_, ?_, ?_⟩
  · rcases mergeStepA_cases st (aliveIds st ids) with heq | ⟨surv, removed, hpres, _, heq⟩ <;>
      rw [heq]
    · exact hmx
    · refine merged_masterExc (Or.inl ?_) hmx
      exact hcc surv (hpres ▸ List.mem_cons_self _ _)
  · intro m hm
    exact step_untouched (untouched_not_in_aliveIds hcc (hunt m hm)) (hunt m hm)
  · refine step_trackOK ?_ htk
    intro t ht
    obtain ⟨m, hmT, hnid⟩ := htr t ht
    exact hnid ▸ untouched_not_in_aliveIds hcc (hunt m hmT)
  · intro g hg hlen i hi
    obtain ⟨m, hnid, hkey, hm⟩ := hgr g hg hlen i hi
    exact ⟨m, hnid, hkey,
      step_untouched (untouched_not_in_aliveIds hcc hm) hm⟩

theorem mergeStepA_cons2 (st : Store) (a b : Nat) (r : List Nat) :
    mergeStepA st (a :: b :: r) = mergedStore st a (b :: r) := rfl

/-- Processing one multi-node agenda group: its members are alive untouched
roots, so the merge preamble keeps the id list, and the bundle survives the
top-kind merge step. -/
theorem bundle_top_step {ex : List Nat} {L N : String} {T : List GNode}
    {tracks : List (Nat × String)} {gs : List (List Nat)} {g : List Nat} {st : Store}
    (htr : ∀ t ∈ tracks, ∃ m ∈ T, m.nid = t.1)
    (hlen : 1 < g.length) (hgnd : g.Nodup)
    (hdisjT : ∀ i ∈ g, ∀ m ∈ T, m.nid ≠ i)
    (hdisjR : ∀ g' ∈ gs, ∀ i ∈ g, i ∉ g')
    (hb : C5Bundle ex L N T tracks (g :: gs) st) :
    aliveIds st g = g ∧ C5Bundle ex L N T tracks gs (mergeStepA st g) := by
  obtain ⟨hwf, hmx, hunt, htk, hgr⟩ := hb
  have hgOK := hgr g (List.mem_cons_self _ _) hlen
  have halive : ∀ i ∈ g, nodeAlive st i := by
    intro i hi
    obtain ⟨m, hnid, _, hm⟩ := hgOK i hi
    exact ⟨m, hm.1, hnid⟩
  have ha : aliveIds st g = g := aliveIds_eq_self hgnd halive
  refine ⟨ha, ?_⟩
  match g, hlen with
  | a :: b :: r, _ =>
    rw [mergeStepA_cons2]
    have hsurvkey : ∀ nd ∈ st.nodes, nd.nid = a → ¬(primaryLabel nd = L ∧ nd.name = N) := by
      intro nd hnd hnid hk
      obtain ⟨m, hmnid, hkey, hm⟩ := hgOK a (List.mem_cons_self _ _)
      have : nd = m := nid_inj hwf hnd hm.1 (by rw [hnid, hmnid])
      subst this
      exact hkey (by rw [nodeKey, hk.1, hk.2])
    refine ⟨merged_WFn hwf, merged_masterExc (Or.inr hsurvkey) hmx, ?_, ?_, ?_⟩
    · intro m hm
      have hnotg : m.nid ∉ a :: b :: r := fun hc => hdisjT m.nid hc m hm rfl
      simp only [List.mem_cons, not_or] at hnotg
      exact merged_untouched hnotg.1 (by simp [not_or, hnotg.2.1, hnotg.2.2]) (hunt m hm)
    · intro t ht
      obtain ⟨m, hmT, hnid⟩ := htr t ht
      have hnotg : t.1 ∉ a :: b :: r := fun hc => hdisjT t.1 hc m hmT hnid
      simp only [List.mem_cons, not_or] at hnotg
      have := @merged_srcRel st a (b :: r) t.1 t.2 (htk t ht)
      rwa [redirectTo_of_not_mem (by simp [not_or, hnotg.2.1, hnotg.2.2])] at this
    · intro g' hg' hlen' i hi
      obtain ⟨m, hnid, hkey, hm⟩ := hgr g' (List.mem_cons_of_mem _ hg') hlen' i hi
      have hnotg : m.nid ∉ a :: b :: r := fun hc => hdisjR g' hg' m.nid hc (hnid ▸ hi)
      simp only [List.mem_cons, not_or] at hnotg
      exact ⟨m, hnid, hkey,
        merged_untouched hnotg.1 (by simp [not_or, hnotg.2.1, hnotg.2.2]) hm⟩


theorem mergeGo_inl_some {fuel : Nat} {st st2 : Store} {ids : List Nat}
    (h : mergeGo fuel st (Sum.inl ids) = some st2) :
    ∃ fuel' surv rest, fuel = fuel' + 1 ∧ aliveIds st ids = surv :: rest ∧
      mergeGo fuel' (mergeStepA st (surv :: rest))
        (Sum.inr ((groupChildren (mergeStepA st (surv :: rest))
          (childRows (mergeStepA st (surv :: rest)) surv)).map (·.2))) = some st2 := by
  match fuel, h with
  | fuel' + 1, h =>
    rw [mergeGo] at h
    rcases ha : aliveIds st ids with _ | ⟨surv, rest⟩
    · rw [ha] at h
      exact absurd h (by simp)
    · rw [ha] at h
      exact ⟨fuel', surv, rest, rfl, rfl, h⟩

/-- Running the consolidation loop over a list of pairwise-disjoint agenda
groups, none keyed `(L, N)`, preserves the invariant bundle. -/
theorem c5_run_entries {ex : List Nat} {L N : String} {T : List GNode}
    {tracks : List (Nat × String)}
    (htr : ∀ t ∈ tracks, ∃ m ∈ T, m.nid = t.1) :
    ∀ (l : List (List Nat)) (fuel : Nat) (st stF : Store),
      mergeGo fuel st (Sum.inr l) = some stF →
      (∀ g ∈ l, 1 < g.length → g.Nodup) →
      (∀ g ∈ l, 1 < g.length → ∀ i ∈ g, ∀ m ∈ T, m.nid ≠ i) →
      List.Pairwise (fun g g' => ∀ i ∈ g, i ∉ g') l →
      C5Bundle ex L N T tracks l st →
      C5Bundle ex L N T tracks [] stF := by
  intro l
  induction l with
  | nil =>
    intro fuel st stF hrun _ _ _ hb
    match fuel, hrun with
    | fuel + 1, hrun =>
      rw [mergeGo] at hrun
      injection hrun with h
      exact h ▸ hb
  | cons g gs ih =>
    intro fuel st stF hrun hnd hdisjT hpw hb
    have hbgs : C5Bundle ex L N T tracks gs st :=
      ⟨hb.1, hb.2.1, hb.2.2.1, hb.2.2.2.1,
       fun g' hg' => hb.2.2.2.2 g' (List.mem_cons_of_mem _ hg')⟩
    match fuel, hrun with
    | fuel + 1, hrun =>
      rw [mergeGo] at hrun
      by_cases hlen : 1 < g.length
      · rw [if_pos hlen] at hrun
        rcases h2 : mergeGo fuel st (Sum.inl g) with _ | st2
        · rw [h2] at hrun
          exact absurd hrun (by simp)
        · rw [h2] at hrun
          obtain ⟨ha, hb1⟩ := bundle_top_step htr hlen
            (hnd g (List.mem_cons_self _ _) hlen)
            (hdisjT g (List.mem_cons_self _ _) hlen)
            (fun g' hg' => (List.pairwise_cons.1 hpw).1 g' hg') hb
          obtain ⟨fuel', surv, rest, _, ha2, hchild⟩ := mergeGo_inl_some h2
          rw [ha] at ha2
          have hb2 : C5Bundle ex L N T tracks gs st2 := by
            rw [ha2] at hb1
            exact mergeGo_preserves fuel' (C5Bundle ex L N T tracks gs)
              (bundle_child_step htr) _ _ st2 hchild
              (childGroups_childCall (mergeStepA st (surv :: rest)) surv) hb1
          exact ih fuel st2 stF hrun
            (fun g' hg' => hnd g' (List.mem_cons_of_mem _ hg'))
            (fun g' hg' => hdisjT g' (List.mem_cons_of_mem _ hg'))
            (List.pairwise_cons.1 hpw).2 hb2
      · rw [if_neg hlen] at hrun
        exact ih fuel st stF hrun
          (fun g' hg' => hnd g' (List.mem_cons_of_mem _ hg'))
          (fun g' hg' => hdisjT g' (List.mem_cons_of_mem _ hg'))
          (List.pairwise_cons.1 hpw).2 hbgs

/-- Merging the `(L, N)` root pair shrinks the master exclusion set to the
survivor alone. -/
theorem merged_masterExc_shrink {st : Store} {s d : Nat} {L N : String}
    (h : MasterExc [s, d] L N st) : MasterExc [s] L N (mergedStore st s [d]) := by
  intro n hn hex hl hname
  obtain ⟨hn0, hnr⟩ := mem_mergedStore_nodes.1 hn
  have hs : n.nid ≠ s := by simpa using hex
  have hd : n.nid ≠ d := by simpa using hnr
  rcases h n hn0 (by simp [hs, hd]) hl hname with ⟨e, he, hdst⟩ | hz
  · exact Or.inl (merged_hasIncoming hnr ⟨e, he, hdst⟩)
  · refine Or.inr ?_
    intro e' he'
    obtain ⟨e, he, heq⟩ := mem_mergedStore_edges.1 he'
    subst heq
    rw [redirectEdge]
    constructor
    · rcases redirectTo_eq_or [d] s e.src with hsrc | ⟨hsrc, _⟩ <;> simp only [hsrc]
      · exact fun hc => hs hc.symm
      · exact (hz e he).1
    · rcases redirectTo_eq_or [d] s e.dst with hdst | ⟨hdst, _⟩ <;> simp only [hdst]
      · exact fun hc => hs hc.symm
      · exact (hz e he).2

/-- The surviving root of the `(L, N)` merge remains an untouched root: the
discarded root had no incoming edges, so nothing is redirected onto the
survivor as a target. -/
theorem merged_surv_untouched {st : Store} {r1 r2 : GNode}
    (hne : r1.nid ≠ r2.nid) (h1 : Untouched r1 st) (h2 : Untouched r2 st) :
    Untouched r1 (mergedStore st r1.nid [r2.nid]) := by
  obtain ⟨hm1, hnd1, e0, he0, hsrc0⟩ := h1
  refine ⟨mem_mergedStore_nodes.2 ⟨hm1, by simpa using hne⟩, ?_, ?_⟩
  · intro e' he'
    obtain ⟨e, he, heq⟩ := mem_mergedStore_edges.1 he'
    subst heq
    rw [redirectEdge]
    have hdd : e.dst ∉ [r2.nid] := by simpa using h2.2.1 e he
    rw [redirectTo_of_not_mem hdd]
    exact hnd1 e he
  · refine ⟨redirectEdge [r2.nid] r1.nid e0, mem_mergedStore_edges.2 ⟨e0, he0, rfl⟩, ?_⟩
    rw [redirectEdge]
    have : e0.src ∉ [r2.nid] := by simp [hsrc0, hne]
    simp only [redirectTo_of_not_mem this, hsrc0]
    exact redirectTo_of_not_mem (by simp [hne])

/-- Processing the `(L, N)` group `[r1.nid, r2.nid]` itself: the pair is
merged with `r1` surviving, and the invariant bundle continues with the
exclusion set and the tracked sources collapsed onto the survivor. -/
theorem c5_G_step {L N : String} {T2 : List GNode} {tracks1 : List (Nat × String)}
    {r1 r2 : GNode} {st stG2 : Store} {fuel : Nat}
    (hne : r1.nid ≠ r2.nid)
    (hwf : WFn st)
    (hmx : MasterExc [r1.nid, r2.nid] L N st)
    (hu1 : Untouched r1 st) (hu2 : Untouched r2 st)
    (hT2 : UntouchedAll T2 st)
    (hT2disj : ∀ m ∈ T2, m.nid ≠ r1.nid ∧ m.nid ≠ r2.nid)
    (htk1 : TrackOK tracks1 st)
    (htrsrc : ∀ t ∈ tracks1, t.1 = r1.nid ∨ t.1 = r2.nid)
    (hrun : mergeGo fuel st (Sum.inl [r1.nid, r2.nid]) = some stG2) :
    C5Bundle [r1.nid] L N (r1 :: T2)
      (tracks1.map (fun t => (r1.nid, t.2))) [] stG2 := by
  obtain ⟨fuel', surv, rest, _, ha, hchild⟩ := mergeGo_inl_some hrun
  have ha2 : aliveIds st [r1.nid, r2.nid] = [r1.nid, r2.nid] := by
    refine aliveIds_eq_self (by simp [hne]) ?_
    intro i hi
    rcases List.mem_cons.1 hi with h | h
    · exact ⟨r1, hu1.1, h.symm⟩
    · have : i = r2.nid := by simpa using h
      exact ⟨r2, hu2.1, this.symm⟩
  rw [ha2] at ha
  injection ha with ha_s ha_r
  subst ha_s
  subst ha_r
  rw [mergeStepA_cons2] at hchild
  set st1 := mergedStore st r1.nid [r2.nid] with hst1
  have hb1 : C5Bundle [r1.nid] L N (r1 :: T2) (tracks1.map (fun t => (r1.nid, t.2))) [] st1 := by
    refine ⟨merged_WFn hwf, merged_masterExc_shrink hmx, ?_, ?_, ?_⟩
    · intro m hm
      rcases List.mem_cons.1 hm with h | h
      · exact h ▸ merged_surv_untouched hne hu1 hu2
      · obtain ⟨hd1, hd2⟩ := hT2disj m h
        exact merged_untouched hd1 (by simpa using hd2) (hT2 m h)
    · intro t ht
      obtain ⟨t0, ht0, heq⟩ := List.mem_map.1 ht
      have := @merged_srcRel st r1.nid [r2.nid] t0.1 t0.2 (htk1 t0 ht0)
      have hred : redirectTo [r2.nid] r1.nid t0.1 = r1.nid := by
        rcases htrsrc t0 ht0 with h | h
        · rw [redirectTo_of_not_mem (by simp [h, hne])]
          exact h
        · rw [redirectTo, if_pos (by simp [h])]
      rw [hred] at this
      rw [← heq]
      exact this
    · intro g hg
      simp at hg
  exact mergeGo_preserves fuel' _
    (bundle_child_step (by
      intro t ht
      obtain ⟨t0, _, heq⟩ := List.mem_map.1 ht
      exact ⟨r1, List.mem_cons_self _ _, by rw [← heq]⟩))
    st1 _ stG2 hchild (childGroups_childCall st1 r1.nid) hb1

theorem mergeGo_zero_none (st : Store) (arg : Sum (List Nat) (List (List Nat))) :
    mergeGo 0 st arg = none := by
  rw [mergeGo]

theorem mergeGo_inr_split : ∀ (l1 : List (List Nat)) (l2 : List (List Nat))
    (fuel : Nat) (st stF : Store),
    mergeGo fuel st (Sum.inr (l1 ++ l2)) = some stF →
    ∃ stM fuel2, mergeGo fuel st (Sum.inr l1) = some stM ∧
      mergeGo fuel2 stM (Sum.inr l2) = some stF := by
  intro l1
  induction l1 with
  | nil =>
    intro l2 fuel st stF h
    match fuel, h with
    | fuel + 1, h => exact ⟨st, fuel + 1, by rw [mergeGo], h⟩
  | cons g l1 ih =>
    intro l2 fuel st stF h
    match fuel, h with
    | fuel + 1, h =>
      rw [List.cons_append, mergeGo] at h
      by_cases hlen : 1 < g.length
      · rw [if_pos hlen] at h
        rcases h2 : mergeGo fuel st (Sum.inl g) with _ | st2
        · rw [h2] at h
          exact absurd h (by simp)
        · rw [h2] at h
          obtain ⟨stM, fuel2, hm1, hm2⟩ := ih l2 fuel st2 stF h
          refine ⟨stM, fuel2, ?_, hm2⟩
          rw [mergeGo, if_pos hlen, h2]
          exact hm1
      · rw [if_neg hlen] at h
        obtain ⟨stM, fuel2, hm1, hm2⟩ := ih l2 fuel st stF h
        refine ⟨stM, fuel2, ?_, hm2⟩
        rw [mergeGo, if_neg hlen]
        exact hm1

theorem filter_eq_singleton {α : Type} {l : List α} {a : α} {p : α → Bool}
    (hnd : l.Nodup) (ha : a ∈ l) (hpa : p a = true)
    (huniq : ∀ x ∈ l, p x = true → x = a) : l.filter p = [a] := by
  induction l with
  | nil => exact absurd ha (List.not_mem_nil a)
  | cons x xs ih =>
    by_cases hxa : x = a
    · subst hxa
      rw [List.filter_cons, if_pos hpa]
      have hrest : xs.filter p = [] := by
        rw [List.filter_eq_nil_iff]
        intro y hy hpy
        have : y = x := huniq y (List.mem_cons_of_mem _ hy) hpy
        exact absurd (this ▸ hy) (List.nodup_cons.1 hnd).1
      rw [hrest]
    · have hpx : p x = false := by
        rcases Bool.eq_false_or_eq_true (p x) with h | h
        · exact absurd (huniq x (List.mem_cons_self _ _) h) hxa
        · exact h
      rw [List.filter_cons, if_neg (by simp [hpx])]
      refine ih (List.nodup_cons.1 hnd).2 ?_ ?_
      · rcases List.mem_cons.1 ha with h | h
        · exact absurd h.symm hxa
        · exact h
      · intro y hy hpy
        exact huniq y (List.mem_cons_of_mem _ hy) hpy

theorem mergeGo_inr_cons_multi {fuel : Nat} {st stF : Store} {g : List Nat}
    {gs : List (List Nat)} (hlen : 1 < g.length)
    (h : mergeGo fuel st (Sum.inr (g :: gs)) = some stF) :
    ∃ fuel' stG, mergeGo fuel' st (Sum.inl g) = some stG ∧
      mergeGo fuel' stG (Sum.inr gs) = some stF := by
  match fuel, h with
  | fuel' + 1, h =>
    rw [mergeGo, if_pos hlen] at h
    rcases h2 : mergeGo fuel' st (Sum.inl g) with _ | stG
    · rw [h2] at h
      exact absurd h (by simp)
    · rw [h2] at h
      exact ⟨fuel', stG, h2, h⟩

theorem groupRootsByKey_mem_snd {roots : List GNode} {kv : (String × String) × List Nat}
    (h : kv ∈ groupRootsByKey roots) :
    kv.2 = (roots.filter (fun n => decide (nodeKey n = kv.1))).map (·.nid) := by
  obtain ⟨k, _, heq⟩ := List.mem_map.1 h
  rw [← heq]

theorem groupRootsByKey_keys (roots : List GNode) :
    (groupRootsByKey roots).map (·.1) = firstDedup (roots.map nodeKey) := by
  rw [groupRootsByKey, List.map_map]
  exact List.map_id _

theorem groupRootsByKey_keys_nodup (roots : List GNode) :
    ((groupRootsByKey roots).map (·.1)).Nodup := by
  rw [groupRootsByKey_keys]
  exact nodup_firstDedup _

theorem groupRootsByKey_mem_of_key {roots : List GNode} {k : String × String}
    (h : k ∈ roots.map nodeKey) :
    (k, (roots.filter (fun n => decide (nodeKey n = k))).map (·.nid)) ∈ groupRootsByKey roots :=
  List.mem_map.2 ⟨k, mem_firstDedup.2 h, rfl⟩

/-- The tracked `(source id, relation)` pairs of the two roots being watched. -/
def c5TrackSrcs (st : Store) (s d : Nat) : List (Nat × String) :=
  (st.edges.filter (fun e => decide (e.src = s) || decide (e.src = d))).map
    (fun e => (e.src, e.rel))

/-- The candidate roots whose `(label, name)` key is unique among the roots
and differs from `(L, N)`. -/
def c5Single (st : Store) (L N : String) : List GNode :=
  (rootCandidates st).filter (fun n => decide (nodeKey n ≠ (L, N)) &&
    decide (((rootCandidates st).filter
      (fun m => decide (nodeKey m = nodeKey n))).length = 1))

/-- The candidate roots kept untouched through the agenda prefix: key not
`(L, N)`, and either unique-keyed or keyed outside the prefix keys. -/
def c5Tracked (st : Store) (L N : String) (preKeys : List (String × String)) : List GNode :=
  (rootCandidates st).filter (fun n => decide (nodeKey n ≠ (L, N)) &&
    (decide (((rootCandidates st).filter
        (fun m => decide (nodeKey m = nodeKey n))).length = 1) ||
     !decide (nodeKey n ∈ preKeys)))

theorem c5TrackSrcs_mem {st : Store} {s d : Nat} {t : Nat × String} :
    t ∈ c5TrackSrcs st s d ↔
      ∃ e ∈ st.edges, (e.src = s ∨ e.src = d) ∧ (e.src, e.rel) = t := by
  rw [c5TrackSrcs]
  constructor
  · intro h
    obtain ⟨e, he, heq⟩ := List.mem_map.1 h
    obtain ⟨he0, hp⟩ := List.mem_filter.1 he
    refine ⟨e, he0, ?_, heq⟩
    simpa using hp
  · rintro ⟨e, he, hor, heq⟩
    exact List.mem_map.2 ⟨e, List.mem_filter.2 ⟨he, by simpa using hor⟩, heq⟩

theorem c5Single_mem {st : Store} {L N : String} {n : GNode} :
    n ∈ c5Single st L N ↔ n ∈ rootCandidates st ∧ nodeKey n ≠ (L, N) ∧
      ((rootCandidates st).filter (fun m => decide (nodeKey m = nodeKey n))).length = 1 := by
  rw [c5Single, List.mem_filter]
  simp [and_assoc]

theorem c5Tracked_mem {st : Store} {L N : String} {preKeys : List (String × String)}
    {n : GNode} :
    n ∈ c5Tracked st L N preKeys ↔ n ∈ rootCandidates st ∧ nodeKey n ≠ (L, N) ∧
      (((rootCandidates st).filter
          (fun m => decide (nodeKey m = nodeKey n))).length = 1 ∨
       nodeKey n ∉ preKeys) := by
  rw [c5Tracked, List.mem_filter]
  simp [and_assoc]

/-- C5: for a store with distinct node ids whose candidate roots (no incoming
edge, at least one outgoing edge) keyed `(L, N)` are exactly the two records
`r1` and `r2`, any terminating run of the consolidation pass ends with exactly
`r1` as the candidate root keyed `(L, N)`; the discarded root `r2` had no
incoming edges, and each of its outgoing relationships survives attached to
`r1`; every candidate root whose key is unique among the roots is still a
candidate root, unchanged. -/
theorem c5_duplicate_roots_merged
    (st0 stF : Store) (fuel : Nat) (L N : String) (r1 r2 : GNode)
    (hwf : WFn st0)
    (hgroup : (rootCandidates st0).filter (fun n => decide (nodeKey n = (L, N))) = [r1, r2])
    (hrun : find_and_merge_duplicate_nodes fuel st0 = some stF) :
    (rootCandidates stF).filter (fun n => decide (nodeKey n = (L, N))) = [r1] ∧
    (∀ e ∈ st0.edges, e.dst ≠ r2.nid) ∧
    (∀ e ∈ st0.edges, e.src = r2.nid →
      ∃ x : Nat, (⟨r1.nid, e.rel, x⟩ : GEdge) ∈ stF.edges) ∧
    (∀ n ∈ rootCandidates st0,
      ((rootCandidates st0).filter (fun m => decide (nodeKey m = nodeKey n))).length = 1 →
      n ∈ rootCandidates stF) := by
  have hsub : ∀ n ∈ rootCandidates st0, n ∈ st0.nodes :=
    fun n hn => (rootCandidates_iff.1 hn).1
  have hr1f : r1 ∈ (rootCandidates st0).filter (fun n => decide (nodeKey n = (L, N))) := by
    rw [hgroup]
    exact List.mem_cons_self _ _
  have hr2f : r2 ∈ (rootCandidates st0).filter (fun n => decide (nodeKey n = (L, N))) := by
    rw [hgroup]
    exact List.mem_cons_of_mem _ (List.mem_cons_self _ _)
  have hr1mem : r1 ∈ rootCandidates st0 := (List.mem_filter.1 hr1f).1
  have hr2mem : r2 ∈ rootCandidates st0 := (List.mem_filter.1 hr2f).1
  have hk1 : nodeKey r1 = (L, N) := by simpa using (List.mem_filter.1 hr1f).2
  have hk2 : nodeKey r2 = (L, N) := by simpa using (List.mem_filter.1 hr2f).2
  have hndnodes : st0.nodes.Nodup := List.Nodup.of_map _ hwf
  have hrootsnd : (rootCandidates st0).Nodup := List.Nodup.filter _ hndnodes
  have hr12 : r1 ≠ r2 := by
    have h12 := hgroup ▸ List.Nodup.filter
      (fun n => decide (nodeKey n = (L, N))) hrootsnd
    simpa using (List.nodup_cons.1 h12).1
  have hne : r1.nid ≠ r2.nid := fun h =>
    hr12 (nid_inj hwf (hsub r1 hr1mem) (hsub r2 hr2mem) h)
  have hu1 : Untouched r1 st0 := rootCandidates_iff.1 hr1mem
  have hu2 : Untouched r2 st0 := rootCandidates_iff.1 hr2mem
  have hGentry : ((L, N), [r1.nid, r2.nid]) ∈ groupRootsByKey (rootCandidates st0) := by
    have hkmem : (L, N) ∈ (rootCandidates st0).map nodeKey :=
      List.mem_map.2 ⟨r1, hr1mem, hk1⟩
    have h := groupRootsByKey_mem_of_key hkmem
    rw [hgroup] at h
    exact h
  obtain ⟨pre, post, hsplit⟩ := List.append_of_mem hGentry
  have hkeysplit : (groupRootsByKey (rootCandidates st0)).map (·.1)
      = pre.map (·.1) ++ ((L, N) :: post.map (·.1)) := by
    rw [hsplit, List.map_append, List.map_cons]
  have hknd := groupRootsByKey_keys_nodup (rootCandidates st0)
  rw [hkeysplit] at hknd
  obtain ⟨hndpreK, hndconsK, hdisjK⟩ := List.nodup_append.1 hknd
  have hprekey : ∀ kv ∈ pre, kv.1 ≠ (L, N) := by
    intro kv hkv hc
    exact hdisjK (List.mem_map_of_mem _ hkv) (by rw [hc]; exact List.mem_cons_self _ _)
  have hpostkey : ∀ kv ∈ post, kv.1 ≠ (L, N) := by
    intro kv hkv hc
    exact (List.nodup_cons.1 hndconsK).1 (hc ▸ List.mem_map_of_mem _ hkv)
  have hpostnotpre : ∀ kv ∈ post, kv.1 ∉ pre.map (·.1) := by
    intro kv hkv hc
    exact hdisjK hc (List.mem_cons_of_mem _ (List.mem_map_of_mem _ hkv))
  have hpremem : ∀ kv ∈ pre, kv ∈ groupRootsByKey (rootCandidates st0) := by
    intro kv hkv
    rw [hsplit]
    exact List.mem_append_left _ hkv
  have hpostmem : ∀ kv ∈ post, kv ∈ groupRootsByKey (rootCandidates st0) := by
    intro kv hkv
    rw [hsplit]
    exact List.mem_append_right _ (List.mem_cons_of_mem _ hkv)
  have hmemchar : ∀ kv ∈ groupRootsByKey (rootCandidates st0), ∀ i ∈ kv.2,
      ∃ m, m ∈ rootCandidates st0 ∧ nodeKey m = kv.1 ∧ m.nid = i := by
    intro kv hkv i hi
    rw [groupRootsByKey_mem_snd hkv] at hi
    obtain ⟨m, hm, hnid⟩ := List.mem_map.1 hi
    obtain ⟨hm0, hmp⟩ := List.mem_filter.1 hm
    exact ⟨m, hm0, by simpa using hmp, hnid⟩
  have hglen : ∀ kv ∈ groupRootsByKey (rootCandidates st0),
      kv.2.length = ((rootCandidates st0).filter
        (fun n => decide (nodeKey n = kv.1))).length := by
    intro kv hkv
    rw [groupRootsByKey_mem_snd hkv, List.length_map]
  have hgnd : ∀ kv ∈ groupRootsByKey (rootCandidates st0), kv.2.Nodup := by
    intro kv hkv
    rw [groupRootsByKey_mem_snd hkv]
    have h1 : List.Sublist
        ((rootCandidates st0).filter (fun n => decide (nodeKey n = kv.1)))
        (rootCandidates st0) := List.filter_sublist _
    have h2 : List.Sublist (rootCandidates st0) st0.nodes := List.filter_sublist _
    exact List.Nodup.sublist ((h1.trans h2).map _) hwf
  have hpwkey : List.Pairwise (fun kv kv' => kv.1 ≠ kv'.1)
      (groupRootsByKey (rootCandidates st0)) :=
    (List.pairwise_map).1 (groupRootsByKey_keys_nodup (rootCandidates st0))
  have hpwdisj : List.Pairwise (fun g g' => ∀ i ∈ g, i ∉ g')
      ((groupRootsByKey (rootCandidates st0)).map (·.2)) := by
    rw [List.pairwise_map]
    refine List.Pairwise.imp_of_mem ?_ hpwkey
    intro kv kv' hkv hkv' hneq i hi hi'
    obtain ⟨m, hm, hkm, hnm⟩ := hmemchar kv hkv i hi
    obtain ⟨m', hm', hkm', hnm'⟩ := hmemchar kv' hkv' i hi'
    have heq : m = m' := nid_inj hwf (hsub m hm) (hsub m' hm') (by rw [hnm, hnm'])
    exact hneq (by rw [← hkm, heq, hkm'])
  have hmapsplit : (groupRootsByKey (rootCandidates st0)).map (·.2)
      = pre.map (·.2) ++ [r1.nid, r2.nid] :: post.map (·.2) := by
    rw [hsplit, List.map_append, List.map_cons]
  have hrunM : mergeGo fuel st0
      (Sum.inr (pre.map (·.2) ++ [r1.nid, r2.nid] :: post.map (·.2))) = some stF := by
    rw [← hmapsplit]
    exact hrun
  obtain ⟨stM, fuel2, hph1, hrest⟩ := mergeGo_inr_split _ _ _ _ _ hrunM
  obtain ⟨fuel3, stG, hG, hph3⟩ := mergeGo_inr_cons_multi (by simp) hrest
  rw [hmapsplit] at hpwdisj
  obtain ⟨hpwpre, hpwcons, _⟩ := List.pairwise_append.1 hpwdisj
  have hpwpost := (List.pairwise_cons.1 hpwcons).2
  have hTAmem : ∀ m ∈ c5Tracked st0 L N (pre.map (·.1)), Untouched m st0 :=
    fun m hm => rootCandidates_iff.1 (c5Tracked_mem.1 hm).1
  have hTAsub : ∀ m ∈ c5Tracked st0 L N (pre.map (·.1)), m ∈ st0.nodes :=
    fun m hm => hsub m (c5Tracked_mem.1 hm).1
  have hTAkey : ∀ m ∈ c5Tracked st0 L N (pre.map (·.1)), nodeKey m ≠ (L, N) :=
    fun m hm => (c5Tracked_mem.1 hm).2.1
  have hdisjTpre : ∀ g ∈ pre.map (·.2), 1 < g.length → ∀ i ∈ g,
      ∀ m ∈ (r1 :: r2 :: c5Tracked st0 L N (pre.map (·.1))), m.nid ≠ i := by
    intro g hg hlen i hi m hm hmi
    obtain ⟨kv, hkv, hkveq⟩ := List.mem_map.1 hg
    subst hkveq
    obtain ⟨mr, hmr, hkmr, hnmr⟩ := hmemchar kv (hpremem kv hkv) i hi
    have hmnodes : m ∈ st0.nodes := by
      rcases List.mem_cons.1 hm with h | h
      · rw [h]; exact hsub r1 hr1mem
      rcases List.mem_cons.1 h with h2 | h2
      · rw [h2]; exact hsub r2 hr2mem
      · exact hTAsub m h2
    have hmeq : m = mr := nid_inj hwf hmnodes (hsub mr hmr) (by rw [hmi, hnmr])
    have hkeym : nodeKey m = kv.1 := by rw [hmeq, hkmr]
    have hkvne := hprekey kv hkv
    rcases List.mem_cons.1 hm with h | h
    · exact hkvne (by rw [← hkeym, h, hk1])
    rcases List.mem_cons.1 h with h2 | h2
    · exact hkvne (by rw [← hkeym, h2, hk2])
    · rcases (c5Tracked_mem.1 h2).2.2 with hsing | hnpre
      · have hlen2 := hglen kv (hpremem kv hkv)
        rw [hlen2] at hlen
        rw [hkeym] at hsing
        omega
      · exact hnpre (by rw [hkeym]; exact List.mem_map_of_mem _ hkv)
  have hdisjTpost : ∀ g ∈ post.map (·.2), 1 < g.length → ∀ i ∈ g,
      ∀ m ∈ (r1 :: c5Single st0 L N), m.nid ≠ i := by
    intro g hg hlen i hi m hm hmi
    obtain ⟨kv, hkv, hkveq⟩ := List.mem_map.1 hg
    subst hkveq
    obtain ⟨mr, hmr, hkmr, hnmr⟩ := hmemchar kv (hpostmem kv hkv) i hi
    have hmnodes : m ∈ st0.nodes := by
      rcases List.mem_cons.1 hm with h | h
      · rw [h]; exact hsub r1 hr1mem
      · exact hsub m (c5Single_mem.1 h).1
    have hmeq : m = mr := nid_inj hwf hmnodes (hsub mr hmr) (by rw [hmi, hnmr])
    have hkeym : nodeKey m = kv.1 := by rw [hmeq, hkmr]
    have hkvne := hpostkey kv hkv
    rcases List.mem_cons.1 hm with h | h
    · exact hkvne (by rw [← hkeym, h, hk1])
    · have hsing := (c5Single_mem.1 h).2.2
      have hlen2 := hglen kv (hpostmem kv hkv)
      rw [hlen2] at hlen
      rw [hkeym] at hsing
      omega
  have hndpre : ∀ g ∈ pre.map (·.2), 1 < g.length → g.Nodup := by
    intro g hg _
    obtain ⟨kv, hkv, hkveq⟩ := List.mem_map.1 hg
    exact hkveq ▸ hgnd kv (hpremem kv hkv)
  have hndpost : ∀ g ∈ post.map (·.2), 1 < g.length → g.Nodup := by
    intro g hg _
    obtain ⟨kv, hkv, hkveq⟩ := List.mem_map.1 hg
    exact hkveq ▸ hgnd kv (hpostmem kv hkv)
  have htrsrc1 : ∀ t ∈ c5TrackSrcs st0 r1.nid r2.nid,
      t.1 = r1.nid ∨ t.1 = r2.nid := by
    intro t ht
    obtain ⟨e, _, hor, heq⟩ := c5TrackSrcs_mem.1 ht
    rw [← heq]
    exact hor
  have htr1 : ∀ t ∈ c5TrackSrcs st0 r1.nid r2.nid,
      ∃ m ∈ (r1 :: r2 :: c5Tracked st0 L N (pre.map (·.1))), m.nid = t.1 := by
    intro t ht
    rcases htrsrc1 t ht with h | h
    · exact ⟨r1, List.mem_cons_self _ _, h.symm⟩
    · exact ⟨r2, List.mem_cons_of_mem _ (List.mem_cons_self _ _), h.symm⟩
  have htk0 : TrackOK (c5TrackSrcs st0 r1.nid r2.nid) st0 := by
    intro t ht
    obtain ⟨e, he, _, heq⟩ := c5TrackSrcs_mem.1 ht
    rw [← heq]
    exact ⟨e.dst, he⟩
  have hmx0 : MasterExc [r1.nid, r2.nid] L N st0 := by
    intro n hn hex hl hname
    by_cases hbi : hasIncomingB st0 n.nid = true
    · left
      rw [hasIncomingB, List.any_eq_true] at hbi
      obtain ⟨e, he, hde⟩ := hbi
      exact ⟨e, he, of_decide_eq_true hde⟩
    · have hbi' : hasIncomingB st0 n.nid = false := by simpa using hbi
      by_cases hbo : hasOutgoingB st0 n.nid = true
      · exfalso
        have hnroot : n ∈ rootCandidates st0 :=
          List.mem_filter.2 ⟨hn, by rw [hbi', hbo]; rfl⟩
        have hnf : n ∈ (rootCandidates st0).filter
            (fun x => decide (nodeKey x = (L, N))) :=
          List.mem_filter.2 ⟨hnroot, by simp [nodeKey, hl, hname]⟩
        rw [hgroup] at hnf
        rcases List.mem_cons.1 hnf with h | h
        · exact hex (by rw [h]; exact List.mem_cons_self _ _)
        · have h2 : n = r2 := by simpa using h
          exact hex (by
            rw [h2]
            exact List.mem_cons_of_mem _ (List.mem_cons_self _ _))
      · right
        have hbo' : hasOutgoingB st0 n.nid = false := by simpa using hbo
        intro e he
        exact ⟨(hasOutgoingB_false_iff st0 n.nid).1 hbo' e he,
               (hasIncomingB_false_iff st0 n.nid).1 hbi' e he⟩
  have hgr0 : GroupsOK L N (pre.map (·.2)) st0 := by
    intro g hg _ i hi
    obtain ⟨kv, hkv, hkveq⟩ := List.mem_map.1 hg
    subst hkveq
    obtain ⟨mr, hmr, hkmr, hnmr⟩ := hmemchar kv (hpremem kv hkv) i hi
    exact ⟨mr, hnmr, by rw [hkmr]; exact hprekey kv hkv, rootCandidates_iff.1 hmr⟩
  have hb0 : C5Bundle [r1.nid, r2.nid] L N
      (r1 :: r2 :: c5Tracked st0 L N (pre.map (·.1)))
      (c5TrackSrcs st0 r1.nid r2.nid) (pre.map (·.2)) st0 := by
    refine ⟨hwf, hmx0, ?_, htk0, hgr0⟩
    intro m hm
    rcases List.mem_cons.1 hm with h | h
    · rw [h]; exact hu1
    rcases List.mem_cons.1 h with h2 | h2
    · rw [h2]; exact hu2
    · exact hTAmem m h2
  have hb1 := c5_run_entries htr1 (pre.map (·.2)) fuel st0 stM hph1
    hndpre hdisjTpre hpwpre hb0
  have hu1M : Untouched r1 stM := hb1.2.2.1 r1 (List.mem_cons_self _ _)
  have hu2M : Untouched r2 stM :=
    hb1.2.2.1 r2 (List.mem_cons_of_mem _ (List.mem_cons_self _ _))
  have hTAdisj : ∀ m ∈ c5Tracked st0 L N (pre.map (·.1)),
      m.nid ≠ r1.nid ∧ m.nid ≠ r2.nid := by
    intro m hm
    constructor
    · intro hc
      have heq : m = r1 := nid_inj hwf (hTAsub m hm) (hsub r1 hr1mem) hc
      exact hTAkey m hm (by rw [heq, hk1])
    · intro hc
      have heq : m = r2 := nid_inj hwf (hTAsub m hm) (hsub r2 hr2mem) hc
      exact hTAkey m hm (by rw [heq, hk2])
  have hb2 := c5_G_step hne hb1.1 hb1.2.1 hu1M hu2M
    (fun m hm => hb1.2.2.1 m (List.mem_cons_of_mem _ (List.mem_cons_of_mem _ hm)))
    hTAdisj hb1.2.2.2.1 htrsrc1 hG
  have hTSsubTA : ∀ m ∈ c5Single st0 L N, m ∈ c5Tracked st0 L N (pre.map (·.1)) := by
    intro m hm
    obtain ⟨h1, h2, h3⟩ := c5Single_mem.1 hm
    exact c5Tracked_mem.2 ⟨h1, h2, Or.inl h3⟩
  have hb3 : C5Bundle [r1.nid] L N (r1 :: c5Single st0 L N)
      ((c5TrackSrcs st0 r1.nid r2.nid).map (fun t => (r1.nid, t.2)))
      (post.map (·.2)) stG := by
    refine ⟨hb2.1, hb2.2.1, ?_, hb2.2.2.2.1, ?_⟩
    · intro m hm
      rcases List.mem_cons.1 hm with h | h
      · rw [h]; exact hb2.2.2.1 r1 (List.mem_cons_self _ _)
      · exact hb2.2.2.1 m (List.mem_cons_of_mem _ (hTSsubTA m h))
    · intro g hg hlen i hi
      obtain ⟨kv, hkv, hkveq⟩ := List.mem_map.1 hg
      subst hkveq
      obtain ⟨mr, hmr, hkmr, hnmr⟩ := hmemchar kv (hpostmem kv hkv) i hi
      have hmrTA : mr ∈ c5Tracked st0 L N (pre.map (·.1)) := by
        refine c5Tracked_mem.2 ⟨hmr, by rw [hkmr]; exact hpostkey kv hkv, Or.inr ?_⟩
        rw [hkmr]
        exact hpostnotpre kv hkv
      exact ⟨mr, hnmr, by rw [hkmr]; exact hpostkey kv hkv,
        hb2.2.2.1 mr (List.mem_cons_of_mem _ hmrTA)⟩
  have htr3 : ∀ t ∈ (c5TrackSrcs st0 r1.nid r2.nid).map (fun t => (r1.nid, t.2)),
      ∃ m ∈ (r1 :: c5Single st0 L N), m.nid = t.1 := by
    intro t ht
    obtain ⟨t0, _, heq⟩ := List.mem_map.1 ht
    exact ⟨r1, List.mem_cons_self _ _, by rw [← heq]⟩
  have hbF := c5_run_entries htr3 (post.map (·.2)) fuel3 stG stF hph3
    hndpost hdisjTpost hpwpost hb3
  have hwfF : WFn stF := hbF.1
  have hmxF : MasterExc [r1.nid] L N stF := hbF.2.1
  have huF : Untouched r1 stF := hbF.2.2.1 r1 (List.mem_cons_self _ _)
  refine ⟨?_, hu2.2.1, ?_, ?_⟩
  · refine filter_eq_singleton (List.Nodup.filter _ (List.Nodup.of_map _ hwfF))
      (rootCandidates_iff.2 huF) (by simp [hk1]) ?_
    intro x hx hkx
    have hkx' : nodeKey x = (L, N) := by simpa using hkx
    obtain ⟨hxn, hxnd, e1, he1, hsrc1⟩ := rootCandidates_iff.1 hx
    by_cases hxs : x.nid = r1.nid
    · exact nid_inj hwfF hxn huF.1 hxs
    · exfalso
      have hl : primaryLabel x = L := congrArg Prod.fst hkx'
      have hnm : x.name = N := congrArg Prod.snd hkx'
      rcases hmxF x hxn (by simpa using hxs) hl hnm with ⟨e, he, hdst⟩ | hz
      · exact hxnd e he hdst
      · exact (hz e1 he1).1 hsrc1
  · intro e he hsrc
    have hmemt : (r2.nid, e.rel) ∈ c5TrackSrcs st0 r1.nid r2.nid :=
      c5TrackSrcs_mem.2 ⟨e, he, Or.inr hsrc, by rw [hsrc]⟩
    have hmemt2 : (r1.nid, e.rel) ∈
        (c5TrackSrcs st0 r1.nid r2.nid).map (fun t => (r1.nid, t.2)) :=
      List.mem_map.2 ⟨(r2.nid, e.rel), hmemt, rfl⟩
    exact hbF.2.2.2.1 _ hmemt2
  · intro n hn hsing
    have hnk : nodeKey n ≠ (L, N) := by
      intro hc
      simp only [hc] at hsing
      rw [hgroup] at hsing
      simp at hsing
    have hnTS : n ∈ c5Single st0 L N := c5Single_mem.2 ⟨hn, hnk, hsing⟩
    exact rootCandidates_iff.2 (hbF.2.2.1 n (List.mem_cons_of_mem _ hnTS))

/-- A concrete store with two duplicate `("C", "B")` roots and one distinct
child each. -/
def w5Store : Store :=
  { nodes := [⟨1, ["C"], "B"⟩, ⟨2, ["C"], "B"⟩, ⟨3, ["D"], "x"⟩, ⟨4, ["E"], "y"⟩],
    edges := [⟨1, "r", 3⟩, ⟨2, "s", 4⟩] }

/-- The consolidated form of `w5Store`. -/
def w5Final : Store :=
  { nodes := [⟨1, ["C"], "B"⟩, ⟨3, ["D"], "x"⟩, ⟨4, ["E"], "y"⟩],
    edges := [⟨1, "r", 3⟩, ⟨1, "s", 4⟩] }

theorem c5_witness :
    find_and_merge_duplicate_nodes 6 w5Store = some w5Final ∧
    (rootCandidates w5Final).filter (fun n => decide (nodeKey n = ("C", "B")))
      = [⟨1, ["C"], "B"⟩] ∧
    (∀ e ∈ w5Store.edges, e.src = 2 →
      ∃ x : Nat, (⟨1, e.rel, x⟩ : GEdge) ∈ w5Final.edges) := by
  have h := c5_duplicate_roots_merged w5Store w5Final 6 "C" "B"
    ⟨1, ["C"], "B"⟩ ⟨2, ["C"], "B"⟩
    (show (w5Store.nodes.map (fun n => n.nid)).Nodup by decide)
    (by decide) (by decide)
  exact ⟨by decide, h.1, h.2.2.1⟩
